import Mathlib

set_option maxRecDepth 100000
set_option maxHeartbeats 1000000

/-!
Shallow embedding of the mahjong solitaire board model and searchers from
`monte_carlo.py`, together with proofs of the specification's claims about it.

Modelling conventions:
* Python lists become Lean `List`s; `list.pop()` is `List.getLast?` to read the
  popped element and `List.dropLast` for the shrunken list.  `pop` on an empty
  list (an exception in Python, unreachable under the documented preconditions)
  is modelled as a no-op.
* Mutating methods become functions `Board → ... → Board`.
* Python `set`s become duplicate-free lists (`List.dedup` / `setInsert`), and
  `sorted(...)` becomes a stable insertion sort by the same key; since the keys
  that occur are distinct, the sorted result does not depend on set iteration
  order.
* `random.shuffle`-style shuffling in `fill` is modelled by quantifying over an
  arbitrary permutation of the full piece multiset (the in-place swap loop is a
  permutation of the list).
-/

/-- A piece symbol: one of the 36 one-character values of `PIECES`. -/
abbrev Piece := Char

/-- `PIECES = [str(_) for _ in range(10)] + [chr(x + ord('A')) for x in range(26)]`. -/
def PIECES : List Piece :=
  (List.range 10).map (fun n => Char.ofNat (48 + n)) ++
  (List.range 26).map (fun x => Char.ofNat (65 + x))

/-- The `row_ix` field of a `MovablePiece`: either a grid row index (an `int`
in the source) or one of the sentinel strings `MovablePiece.TOP = "T"`,
`MovablePiece.LEFT = "L"`, `MovablePiece.RIGHT = "R"`. -/
inductive RowIx where
  | grid : Nat → RowIx
  | T : RowIx
  | L : RowIx
  | R : RowIx
deriving DecidableEq

/-- The `MovablePiece` namedtuple.  Equality (as for a Python namedtuple) is
componentwise over all four fields. -/
structure MovablePiece where
  row_ix : RowIx
  col_ix : Option Nat
  piece : Piece
  depth : Nat
deriving DecidableEq

/-- A move: a pair of `MovablePiece`s, as passed to `do_move`/`undo_move`. -/
abbrev Move := MovablePiece × MovablePiece

/-- The board: grid of stacks `rows` plus the three piles. -/
structure Board where
  rows : List (List (List Piece))
  top : List Piece
  left_blocks : List Piece
  right_blocks : List Piece
deriving DecidableEq

namespace Board

/-- The static `DEPTHS` table: each cell's maximum stack depth. -/
def DEPTHS : List (List Nat) :=
  [[1, 1, 1, 1, 1, 1, 1, 1, 1, 1, 1, 1],
   [1, 2, 2, 2, 2, 2, 2, 1],
   [1, 1, 2, 3, 3, 3, 3, 2, 1, 1],
   [1, 1, 1, 2, 3, 4, 4, 3, 2, 1, 1, 1],
   [1, 1, 1, 2, 3, 4, 4, 3, 2, 1, 1, 1],
   [1, 1, 2, 3, 3, 3, 3, 2, 1, 1],
   [1, 2, 2, 2, 2, 2, 2, 1],
   [1, 1, 1, 1, 1, 1, 1, 1, 1, 1, 1, 1]]

/-- `__init__`: one empty stack per `DEPTHS` cell, empty piles. -/
def init : Board :=
  { rows := DEPTHS.map (fun row => row.map (fun _ => []))
    top := []
    left_blocks := []
    right_blocks := [] }

/-- `clone`: a deep copy; with persistent values this is the identity. -/
def clone (b : Board) : Board := b

/-- `self.rows[row_ix][col_ix]`, totalised with `[]` as the out-of-range
default (the source never indexes out of range). -/
def stack (b : Board) (row_ix col_ix : Nat) : List Piece :=
  (b.rows.getD row_ix []).getD col_ix []

/-- The stack or pile a `MovablePiece` reference with the given `row_ix`
designates (`col_ix` is only meaningful for grid references). -/
def stackAt (b : Board) (ri : RowIx) (ci : Nat) : List Piece :=
  match ri with
  | .T => b.top
  | .L => b.left_blocks
  | .R => b.right_blocks
  | .grid r => b.stack r ci

/-- `get_state`.  The source feeds the string
`"|".join(str(len(stack)) for ...) + "|" + "|".join(three pile lengths)` to
md5 and returns the digest.  That string is an injective encoding of the
depth/length vector, and the digest is modelled as collision-free (the code
treats md5 collisions as accepted false "already seen" positives), so the
canonical state is modelled by the encoded vector itself: every stack length
in row-major order followed by the three pile lengths. -/
def get_state (b : Board) : List Nat :=
  (b.rows.map (fun row => row.map List.length)).flatten ++
  [b.top.length, b.left_blocks.length, b.right_blocks.length]

/-- The inner loop of `fill`: `while depth: stack.append(pieces.pop())`.
Returns the extended stack and the remaining pieces. -/
def fillStack : Nat → List Piece → List Piece → List Piece × List Piece
  | 0, stack, pieces => (stack, pieces)
  | depth + 1, stack, pieces =>
    match pieces.getLast? with
    | none => fillStack depth stack pieces
    | some p => fillStack depth (stack ++ [p]) pieces.dropLast

/-- `fill`'s column loop over one row, pairing each cell with its `DEPTHS`
entry positionally. -/
def fillRow : List Nat → List (List Piece) → List Piece → List (List Piece) × List Piece
  | _, [], pieces => ([], pieces)
  | depths, stack :: rest, pieces =>
    let sp := fillStack (depths.headD 0) stack pieces
    let rp := fillRow depths.tail rest sp.2
    (sp.1 :: rp.1, rp.2)

/-- `fill`'s row loop. -/
def fillRows :
    List (List Nat) → List (List (List Piece)) → List Piece →
      List (List (List Piece)) × List Piece
  | _, [], pieces => ([], pieces)
  | depthss, row :: rest, pieces =>
    let rp := fillRow (depthss.headD []) row pieces
    let rr := fillRows depthss.tail rest rp.2
    (rp.1 :: rr.1, rr.2)

/-- `fill`: distribute `pieces` (the shuffled 144-piece multiset) cell by cell
up to each cell's `DEPTHS` capacity, then `top.append(pieces.pop())`,
`left_blocks.append(pieces.pop())`, `right_blocks.extend(pieces)`. -/
def fill (b : Board) (pieces : List Piece) : Board :=
  let gp := fillRows DEPTHS b.rows pieces
  let afterTop := gp.2.dropLast
  let afterLeft := afterTop.dropLast
  { rows := gp.1
    top := b.top ++ gp.2.getLast?.toList
    left_blocks := b.left_blocks ++ afterTop.getLast?.toList
    right_blocks := b.right_blocks ++ afterLeft }

/-- `is_empty`: no piece anywhere (the source's early `return False`s are the
short-circuiting conjunction). -/
def is_empty (b : Board) : Bool :=
  b.top.isEmpty && b.left_blocks.isEmpty && b.right_blocks.isEmpty &&
  b.rows.all (fun row => row.all List.isEmpty)

/-- `is_movable(row_ix, col_ix, is_left_to_right)`. -/
def is_movable (b : Board) (row_ix col_ix : Nat) (is_left_to_right : Bool) : Bool :=
  let stack := b.stack row_ix col_ix
  if stack.isEmpty then
    false
  else
    let depth := stack.length
    if depth == 4 then
      b.top.isEmpty
    else if depth == 1 && decide (3 ≤ row_ix) && decide (row_ix ≤ 4) then
      if is_left_to_right then b.left_blocks.isEmpty else b.right_blocks.isEmpty
    else
      true

end Board

/-- `stack[-1]`: the exposed top of a stack.  The default is never read; every
caller first checks the stack is non-empty. -/
def topPiece (stack : List Piece) : Piece := stack.getLastD ' '

namespace Board

/-- One directional scan of `find_movable_pieces` over one row: walk the given
column indices keeping `last_depth`, adding a candidate when it is movable and
strictly deeper than the last accepted one, and breaking at the first strictly
shallower cell. -/
def scanRow (b : Board) (row_ix : Nat) (is_left_to_right : Bool) :
    List Nat → Nat → List MovablePiece
  | [], _ => []
  | col_ix :: rest, last_depth =>
    let stack := b.stack row_ix col_ix
    let depth := stack.length
    if b.is_movable row_ix col_ix is_left_to_right && decide (depth > last_depth) then
      { row_ix := .grid row_ix, col_ix := some col_ix
        piece := topPiece stack, depth := depth } ::
        b.scanRow row_ix is_left_to_right rest depth
    else if depth < last_depth then
      []
    else
      b.scanRow row_ix is_left_to_right rest last_depth

end Board

/-- Lexicographic comparison of sort keys (Python tuple comparison). -/
def lexLE : List Nat → List Nat → Bool
  | [], _ => true
  | _ :: _, [] => false
  | a :: as, b :: bs => decide (a < b) || (a == b && lexLE as bs)

/-- Sort key of a `row_ix` under Python 2 mixed-type ordering: every `int`
sorts before every `str`, and the pile markers compare as "L" < "R" < "T". -/
def RowIx.key : RowIx → List Nat
  | .grid r => [0, r]
  | .L => [1, 0]
  | .R => [1, 1]
  | .T => [1, 2]

/-- Sort key of a `col_ix`: `None` sorts before every `int` in Python 2. -/
def colKey : Option Nat → List Nat
  | none => [0, 0]
  | some c => [1, c]

/-- The `(x.row_ix, x.col_ix)` sort key of `find_movable_pieces`. -/
def MovablePiece.key (mp : MovablePiece) : List Nat :=
  mp.row_ix.key ++ colKey mp.col_ix

/-- The `(x[0].row_ix, x[0].col_ix, x[1].row_ix, x[1].col_ix)` sort key of
`find_moves`. -/
def Move.key (m : Move) : List Nat := m.1.key ++ m.2.key

/-- Stable insertion into a sorted list. -/
def insertBy {α : Type _} (le : α → α → Bool) (x : α) : List α → List α
  | [] => [x]
  | y :: ys => if le x y then x :: y :: ys else y :: insertBy le x ys

/-- `sorted(...)` modelled as a stable insertion sort (stable sorts of the
same keyed list coincide). -/
def sortBy {α : Type _} (le : α → α → Bool) : List α → List α
  | [] => []
  | x :: xs => insertBy le x (sortBy le xs)

namespace Board

/-- The grid part of `find_movable_pieces`: for every row, the left-to-right
scan followed by the right-to-left scan, both starting with `last_depth = 0`. -/
def gridMovables (b : Board) : List MovablePiece :=
  (List.range b.rows.length).flatMap (fun row_ix =>
    b.scanRow row_ix true (List.range (b.rows.getD row_ix []).length) 0 ++
      b.scanRow row_ix false (List.range (b.rows.getD row_ix []).length).reverse 0)

/-- The pile part of `find_movable_pieces`: one entry per non-empty pile. -/
def pileMovables (b : Board) : List MovablePiece :=
  (if b.top.isEmpty then [] else
    [{ row_ix := .T, col_ix := none, piece := topPiece b.top, depth := 1 }]) ++
  (if b.left_blocks.isEmpty then [] else
    [{ row_ix := .L, col_ix := none, piece := topPiece b.left_blocks, depth := 1 }]) ++
  (if b.right_blocks.isEmpty then [] else
    [{ row_ix := .R, col_ix := none, piece := topPiece b.right_blocks, depth := 1 }])

/-- `find_movable_pieces`: both directional scans of every row, plus one entry
per non-empty pile, collected as a set and sorted by `(row_ix, col_ix)`. -/
def find_movable_pieces (b : Board) : List MovablePiece :=
  sortBy (fun p q => lexLE p.key q.key) (b.gridMovables ++ b.pileMovables).dedup

end Board

/-- The `movables_by_piece.setdefault(piece, []).append(movable_piece)` step:
append to the group keyed by `mp.piece`, creating it at the end if absent. -/
def groupInsert (groups : List (Piece × List MovablePiece)) (mp : MovablePiece) :
    List (Piece × List MovablePiece) :=
  match groups with
  | [] => [(mp.piece, [mp])]
  | (p, g) :: rest =>
    if p = mp.piece then (p, g ++ [mp]) :: rest else (p, g) :: groupInsert rest mp

/-- The grouping loop of `find_moves`. -/
def movables_by_piece (movable_pieces : List MovablePiece) :
    List (Piece × List MovablePiece) :=
  movable_pieces.foldl groupInsert []

/-- The double loop `for i in range(len - 1): for j in range(i + 1, len)`:
all ordered pairs `(l[i], l[j])` with `i < j`. -/
def pairsOf : List MovablePiece → List Move
  | [] => []
  | x :: rest => rest.map (fun y => (x, y)) ++ pairsOf rest

/-- `find_moves` (a `Board` method that does not read the board): group the
movable pieces by symbol, emit every within-group pair, collect as a set and
sort by the coordinate 4-tuple. -/
def find_moves (movable_pieces : List MovablePiece) : List Move :=
  sortBy (fun m1 m2 => lexLE m1.key m2.key)
    ((movables_by_piece movable_pieces).flatMap (fun g => pairsOf g.2)).dedup

namespace Board

/-- Apply `f` to the stack or pile designated by `(ri, ci)`; the common shape
of `remove_piece` and `replace_piece`'s four-way dispatch on `row_ix`. -/
def updateStack (b : Board) (ri : RowIx) (ci : Nat) (f : List Piece → List Piece) :
    Board :=
  match ri with
  | .T => { b with top := f b.top }
  | .L => { b with left_blocks := f b.left_blocks }
  | .R => { b with right_blocks := f b.right_blocks }
  | .grid r =>
    { b with rows := b.rows.set r ((b.rows.getD r []).set ci (f (b.stack r ci))) }

/-- `remove_piece`: pop the referenced stack or pile.  A grid reference uses
column `col_ix.getD 0`; references produced by `find_movable_pieces` always
carry `some col`. -/
def remove_piece (b : Board) (mp : MovablePiece) : Board :=
  b.updateStack mp.row_ix (mp.col_ix.getD 0) List.dropLast

/-- `replace_piece`: push `mp.piece` back onto the referenced stack or pile. -/
def replace_piece (b : Board) (mp : MovablePiece) : Board :=
  b.updateStack mp.row_ix (mp.col_ix.getD 0) (fun stack => stack ++ [mp.piece])

/-- `do_move`: remove both referenced pieces, first `move[0]` then `move[1]`. -/
def do_move (b : Board) (move : Move) : Board :=
  (b.remove_piece move.1).remove_piece move.2

/-- `undo_move`: replace both pieces, first `move[0]` then `move[1]`. -/
def undo_move (b : Board) (move : Move) : Board :=
  (b.replace_piece move.1).replace_piece move.2

/-- Every piece on the board: grid stacks in row-major order, then the three
piles. -/
def allPieces (b : Board) : List Piece :=
  b.rows.flatten.flatten ++ b.top ++ b.left_blocks ++ b.right_blocks

/-- Total piece count across all grid stacks and the three piles. -/
def totalCount (b : Board) : Nat := (allPieces b).length

/-- Remaining count of one symbol across all grid stacks and the three piles. -/
def symCount (b : Board) (a : Piece) : Nat := (allPieces b).count a

/-- The board's piece content as a multiset. -/
def boardMS (b : Board) : Multiset Piece := (allPieces b : Multiset Piece)

/-- Piece count over the grid cells only. -/
def gridCount (b : Board) : Nat := b.rows.flatten.flatten.length

end Board

/-- The full piece multiset `[piece for piece in PIECES for _ in range(4)]`. -/
def initialPieces : List Piece := PIECES.flatMap (fun p => [p, p, p, p])

/-- Board states reachable by the program: a fresh board filled with some
permutation of the full piece multiset (the shuffle loop permutes the list),
followed by any sequence of moves taken from the move-enumeration pipeline. -/
inductive Reachable : Board → Prop
  | fill (pieces : List Piece) (hp : pieces.Perm initialPieces) :
      Reachable (Board.init.fill pieces)
  | step (b : Board) (m : Move) : Reachable b →
      m ∈ find_moves b.find_movable_pieces → Reachable (b.do_move m)

/-- The normalised location of a `MovablePiece` reference: the pair
`(row_ix, column actually accessed)`; pile references ignore `col_ix`. -/
def MovablePiece.loc (mp : MovablePiece) : RowIx × Nat :=
  (mp.row_ix, match mp.row_ix with | .grid _ => mp.col_ix.getD 0 | _ => 0)

/-- The state of a `BacktrackingSearcher` that the algorithm reads and writes:
its board, the current move path `self.moves`, the `seen_states` set and the
`solutions` set.  The progress/statistics fields (`trail`, counters) only feed
`print_stats` and are not modelled. -/
structure SearcherSt where
  board : Board
  moves : List Move
  seen_states : List (List Nat)
  solutions : List (List Move)
deriving DecidableEq

/-- `set.add`: insert if not already present. -/
def setInsert {α : Type _} [DecidableEq α] (s : List α) (x : α) : List α :=
  if x ∈ s then s else x :: s

/-- The `for ix, move in enumerate(moves)` loop of `backtracking_search`:
apply the move, recurse (`search`), undo the move, pop the path, continue.
`none` propagates an exhausted recursion budget. -/
def btLoop (search : SearcherSt → Option SearcherSt) :
    SearcherSt → List Move → Option SearcherSt
  | s, [] => some s
  | s, move :: rest =>
    match search { s with board := s.board.do_move move, moves := s.moves ++ [move] } with
    | none => none
    | some s1 =>
      btLoop search
        { s1 with board := s1.board.undo_move move, moves := s1.moves.dropLast } rest

/-- `BacktrackingSearcher.backtracking_search`, with an explicit recursion
budget `fuel` (`none` = budget exhausted; the termination theorem shows a
budget proportional to the piece count always suffices).  Order follows the
source: record a solution if the board is empty; prune on a seen state;
otherwise mark the state seen, enumerate moves, and loop. -/
def btSearch : Nat → SearcherSt → Option SearcherSt
  | 0, _ => none
  | fuel + 1, s =>
    if s.board.is_empty then
      some { s with solutions := setInsert s.solutions s.moves }
    else if s.board.get_state ∈ s.seen_states then
      some s
    else
      let s1 := { s with seen_states := setInsert s.seen_states s.board.get_state }
      btLoop (btSearch fuel) s1 (find_moves s1.board.find_movable_pieces)

/-- Validity of a reference's location: a grid reference must be in range
(pile references are always valid). -/
def Board.locOK (b : Board) (ri : RowIx) (ci : Nat) : Prop :=
  match ri with
  | .grid r => r < b.rows.length ∧ ci < (b.rows.getD r []).length
  | _ => True

/-- The depth shape of a board: per-cell stack lengths and the three pile
lengths — exactly the data `get_state` fingerprints. -/
def Board.shape (b : Board) : List (List Nat) × Nat × Nat × Nat :=
  (b.rows.map (fun row => row.map List.length),
   b.top.length, b.left_blocks.length, b.right_blocks.length)

/-- A board whose grid has the geometry of the `DEPTHS` table (8 rows with
the table's cell counts); every board the program constructs satisfies it. -/
def Board.rowShapeOK (b : Board) : Prop :=
  b.rows.map List.length = Board.DEPTHS.map List.length

/-- A placeholder `MovablePiece`, only used as a `getD` default. -/
def mpD : MovablePiece := { row_ix := .T, col_ix := none, piece := ' ', depth := 0 }

/-- The board obtained by filling a fresh board with the unshuffled piece
list (the identity shuffle): a concrete witness of a freshly filled board. -/
def filledB : Board := Board.init.fill initialPieces

/-- The first move `find_moves` returns on `filledB`. -/
def firstMove : Move := (find_moves filledB.find_movable_pieces).getD 0 (mpD, mpD)

/-- A small board for the C3 counterexample: cell (0,0) holds one piece (its
`DEPTHS` maximum is 1) and the `top` pile is non-empty. -/
def cexBoard3 : Board :=
  { Board.init with
    rows := Board.init.rows.set 0 ((Board.init.rows.getD 0 []).set 0 [.ofNat 65])
    top := [.ofNat 66] }

/-- A board with a depth-4 stack at cell (3,5) and a non-empty `top` pile. -/
def wBoard4 : Board :=
  { Board.init with
    rows := Board.init.rows.set 3
      ((Board.init.rows.getD 3 []).set 5 [.ofNat 65, .ofNat 66, .ofNat 67, .ofNat 68])
    top := [.ofNat 69] }

/-- A board with a depth-1 stack at cell (3,0) and both side piles occupied. -/
def wBoard8 : Board :=
  { Board.init with
    rows := Board.init.rows.set 3 ((Board.init.rows.getD 3 []).set 0 [.ofNat 65])
    left_blocks := [.ofNat 66]
    right_blocks := [.ofNat 67] }

/-- A board whose only pieces are two 'A's at cells (0,0) and (0,1). -/
def wBoard2 : Board :=
  { Board.init with
    rows := Board.init.rows.set 0
      (((Board.init.rows.getD 0 []).set 0 [.ofNat 65]).set 1 [.ofNat 65]) }

/-- The move pairing the two exposed 'A's of `wBoard2`. -/
def wMove2 : Move :=
  ({ row_ix := .grid 0, col_ix := some 0, piece := .ofNat 65, depth := 1 },
   { row_ix := .grid 0, col_ix := some 1, piece := .ofNat 65, depth := 1 })

/-- A searcher state on a fresh empty board. -/
def st0 : SearcherSt :=
  { board := Board.init, moves := [], seen_states := [], solutions := [] }

/-- The state `backtracking_search` returns from `st0`: the empty path is
recorded as a solution. -/
def st1 : SearcherSt :=
  { board := Board.init, moves := [], seen_states := [], solutions := [[]] }

/-- Two `MovablePiece` values agreeing on (row, col) but not on `piece`. -/
def cexMPa : MovablePiece :=
  { row_ix := .grid 0, col_ix := some 0, piece := .ofNat 65, depth := 1 }

/-- See `cexMPa`. -/
def cexMPb : MovablePiece :=
  { row_ix := .grid 0, col_ix := some 0, piece := .ofNat 66, depth := 1 }

/-- The `MovablePiece` record `find_movable_pieces` builds for grid cell
`(r, c)`. -/
def Board.mkMP (b : Board) (r c : Nat) : MovablePiece :=
  { row_ix := .grid r, col_ix := some c
    piece := topPiece (b.stack r c), depth := (b.stack r c).length }

/-- The `MovablePiece` record `find_movable_pieces` builds for a pile. -/
def pileMP (ri : RowIx) (stack : List Piece) : MovablePiece :=
  { row_ix := ri, col_ix := none, piece := topPiece stack, depth := 1 }

/-! ## Basic list lemmas -/

theorem set_getD_self {α : Type _} :
    ∀ (l : List α) (i : Nat) (d : α), i < l.length → l.set i (l.getD i d) = l
  | [], i, _, h => by simp at h
  | _ :: _, 0, _, _ => by simp
  | x :: xs, i + 1, d, h => by
    simp only [List.getD_cons_succ, List.set_cons_succ]
    exact congrArg _ (set_getD_self xs i d (by simpa using h))

theorem getD_set_ne {α : Type _} (l : List α) {i j : Nat} (x d : α) (h : i ≠ j) :
    (l.set i x).getD j d = l.getD j d := by
  simp [List.getD_eq_getElem?_getD, List.getElem?_set_ne h]

theorem getD_set_self {α : Type _} (l : List α) {i : Nat} (x d : α) (h : i < l.length) :
    (l.set i x).getD i d = x := by
  simp [List.getD_eq_getElem?_getD, List.getElem?_set_self h]

theorem dropLast_concat_getLast {α : Type _} {l : List α} {x : α}
    (h : l.getLast? = some x) : l.dropLast ++ [x] = l := by
  have hne : l ≠ [] := by rintro rfl; simp at h
  have h2 : x = l.getLast hne := by
    have h3 := List.getLast?_eq_getLast l hne
    rw [h] at h3
    exact Option.some_inj.mp h3
  rw [h2, List.dropLast_append_getLast hne]

theorem getLastD_eq_of_getLast? {α : Type _} {l : List α} {x d : α}
    (h : l.getLast? = some x) : l.getLastD d = x := by
  cases l with
  | nil => simp at h
  | cons y ys => simp [List.getLastD_eq_getLast?, h]

/-! ## Reading and writing stacks -/

theorem Board.stack_pos {b : Board} {r c : Nat} (h : b.stack r c ≠ []) :
    r < b.rows.length ∧ c < (b.rows.getD r []).length := by
  constructor
  · by_contra hr
    push_neg at hr
    apply h
    show (b.rows.getD r []).getD c [] = []
    rw [List.getD_eq_default _ _ hr]
    simp
  · by_contra hc
    push_neg at hc
    apply h
    show (b.rows.getD r []).getD c [] = []
    exact List.getD_eq_default _ _ hc

/-! ## `updateStack` algebra -/

theorem stackAt_updateStack_row_ne (b : Board) {ri ri' : RowIx} (ci ci' : Nat)
    (f : List Piece → List Piece) (h : ri ≠ ri') :
    (b.updateStack ri ci f).stackAt ri' ci' = b.stackAt ri' ci' := by
  cases ri <;> cases ri' <;>
    first
      | exact absurd rfl h
      | rfl
      | (rename_i r r'
         have hrr : r ≠ r' := fun he => h (by rw [he])
         show ((b.rows.set r _).getD r' []).getD ci' [] = _
         rw [getD_set_ne _ _ _ hrr]
         rfl)

theorem stackAt_updateStack_col_ne (b : Board) (r : Nat) {ci ci' : Nat}
    (f : List Piece → List Piece) (h : ci ≠ ci') :
    (b.updateStack (.grid r) ci f).stackAt (.grid r) ci' = b.stackAt (.grid r) ci' := by
  show ((b.rows.set r ((b.rows.getD r []).set ci _)).getD r []).getD ci' [] =
    (b.rows.getD r []).getD ci' []
  rcases Nat.lt_or_ge r b.rows.length with hr | hr
  · rw [getD_set_self _ _ _ hr, getD_set_ne _ _ _ h]
  · rw [List.set_eq_of_length_le hr]

theorem stackAt_updateStack_self (b : Board) {ri : RowIx} {ci : Nat}
    (f : List Piece → List Piece) (h : b.locOK ri ci) :
    (b.updateStack ri ci f).stackAt ri ci = f (b.stackAt ri ci) := by
  cases ri with
  | T => rfl
  | L => rfl
  | R => rfl
  | grid r =>
    obtain ⟨hr, hc⟩ := h
    show ((b.rows.set r ((b.rows.getD r []).set ci _)).getD r []).getD ci [] = _
    rw [getD_set_self _ _ _ hr, getD_set_self _ _ _ hc]
    rfl

theorem updateStack_cancel (b : Board) {ri : RowIx} {ci : Nat}
    {f : List Piece → List Piece} (h : f (b.stackAt ri ci) = b.stackAt ri ci) :
    b.updateStack ri ci f = b := by
  cases ri with
  | T => show ({ b with top := f b.top } : Board) = b; rw [show f b.top = b.top from h]
  | L =>
    show ({ b with left_blocks := f b.left_blocks } : Board) = b
    rw [show f b.left_blocks = b.left_blocks from h]
  | R =>
    show ({ b with right_blocks := f b.right_blocks } : Board) = b
    rw [show f b.right_blocks = b.right_blocks from h]
  | grid r =>
    show ({ b with rows := b.rows.set r ((b.rows.getD r []).set ci (f (b.stack r ci))) } :
      Board) = b
    rw [show f (b.stack r ci) = b.stack r ci from h]
    rcases Nat.lt_or_ge r b.rows.length with hr | hr
    · rcases Nat.lt_or_ge ci (b.rows.getD r []).length with hc | hc
      · rw [show (b.rows.getD r []).set ci (b.stack r ci) = b.rows.getD r [] from
          set_getD_self _ _ _ hc]
        rw [set_getD_self _ _ _ hr]
      · rw [List.set_eq_of_length_le hc, set_getD_self _ _ _ hr]
    · rw [List.set_eq_of_length_le hr]

theorem updateStack_comm_row (b : Board) {ri ri' : RowIx} (ci ci' : Nat)
    (f g : List Piece → List Piece) (h : ri ≠ ri') :
    (b.updateStack ri ci f).updateStack ri' ci' g =
      (b.updateStack ri' ci' g).updateStack ri ci f := by
  cases ri <;> cases ri' <;>
    first
      | exact absurd rfl h
      | rfl
      | (rename_i r r'
         have hrr : r ≠ r' := fun he => h (by rw [he])
         simp only [Board.updateStack, Board.stack]
         congr 1
         rw [getD_set_ne _ _ _ hrr, getD_set_ne _ _ _ hrr.symm,
           List.set_comm _ _ _ hrr])

theorem updateStack_comm_col (b : Board) (r : Nat) {ci ci' : Nat}
    (f g : List Piece → List Piece) (h : ci ≠ ci') :
    (b.updateStack (.grid r) ci f).updateStack (.grid r) ci' g =
      (b.updateStack (.grid r) ci' g).updateStack (.grid r) ci f := by
  simp only [Board.updateStack, Board.stack]
  congr 1
  rcases Nat.lt_or_ge r b.rows.length with hr | hr
  · rw [getD_set_self _ _ _ hr, getD_set_self _ _ _ hr,
      getD_set_ne _ _ _ h, getD_set_ne _ _ _ h.symm,
      List.set_set, List.set_set, List.set_comm _ _ _ h]
  · simp [List.set_eq_of_length_le hr]

theorem replace_remove_self (b : Board) (mp : MovablePiece)
    (h : (b.stackAt mp.row_ix (mp.col_ix.getD 0)).getLast? = some mp.piece) :
    (b.remove_piece mp).replace_piece mp = b := by
  unfold Board.remove_piece Board.replace_piece
  cases hri : mp.row_ix with
  | T =>
    rw [hri] at h
    have h' : b.top.getLast? = some mp.piece := h
    show ({ b with top := b.top.dropLast ++ [mp.piece] } : Board) = b
    rw [dropLast_concat_getLast h']
  | L =>
    rw [hri] at h
    have h' : b.left_blocks.getLast? = some mp.piece := h
    show ({ b with left_blocks := b.left_blocks.dropLast ++ [mp.piece] } : Board) = b
    rw [dropLast_concat_getLast h']
  | R =>
    rw [hri] at h
    have h' : b.right_blocks.getLast? = some mp.piece := h
    show ({ b with right_blocks := b.right_blocks.dropLast ++ [mp.piece] } : Board) = b
    rw [dropLast_concat_getLast h']
  | grid r =>
    rw [hri] at h
    have h' : ((b.rows.getD r []).getD (mp.col_ix.getD 0) []).getLast? = some mp.piece := h
    have hne : b.stack r (mp.col_ix.getD 0) ≠ [] := by
      intro he
      have h2 : (b.stack r (mp.col_ix.getD 0)).getLast? = some mp.piece := h
      rw [he] at h2
      simp at h2
    obtain ⟨hr, hc⟩ := Board.stack_pos hne
    simp only [Board.updateStack, Board.stack]
    rw [List.set_set]
    rw [getD_set_self _ _ _ hr, getD_set_self _ _ _ (by simpa using hc)]
    rw [List.set_set]
    rw [dropLast_concat_getLast h']
    rw [show (b.rows.getD r []).set (mp.col_ix.getD 0)
        ((b.rows.getD r []).getD (mp.col_ix.getD 0) []) = b.rows.getD r [] from
      set_getD_self _ _ _ hc]
    rw [set_getD_self _ _ _ hr]

/-! ## Moves at distinct locations commute; do/undo roundtrip -/

theorem updateStack_comm_loc (b : Board) (p q : MovablePiece)
    (f g : List Piece → List Piece) (h : p.loc ≠ q.loc) :
    (b.updateStack p.row_ix (p.col_ix.getD 0) f).updateStack
        q.row_ix (q.col_ix.getD 0) g =
      (b.updateStack q.row_ix (q.col_ix.getD 0) g).updateStack
        p.row_ix (p.col_ix.getD 0) f := by
  by_cases hrow : p.row_ix = q.row_ix
  · cases hri : p.row_ix with
    | grid r =>
      have hq : q.row_ix = RowIx.grid r := by rw [← hrow]; exact hri
      have hcol : p.col_ix.getD 0 ≠ q.col_ix.getD 0 := by
        intro he
        apply h
        unfold MovablePiece.loc
        rw [hri, hq, he]
      rw [hq]
      exact updateStack_comm_col b r _ _ hcol
    | T =>
      have hq : q.row_ix = RowIx.T := by rw [← hrow]; exact hri
      refine absurd ?_ h
      unfold MovablePiece.loc
      rw [hri, hq]
    | L =>
      have hq : q.row_ix = RowIx.L := by rw [← hrow]; exact hri
      refine absurd ?_ h
      unfold MovablePiece.loc
      rw [hri, hq]
    | R =>
      have hq : q.row_ix = RowIx.R := by rw [← hrow]; exact hri
      refine absurd ?_ h
      unfold MovablePiece.loc
      rw [hri, hq]
  · exact updateStack_comm_row b _ _ _ _ hrow

theorem stackAt_remove_ne (b : Board) (p q : MovablePiece) (h : p.loc ≠ q.loc) :
    (b.remove_piece p).stackAt q.row_ix (q.col_ix.getD 0) =
      b.stackAt q.row_ix (q.col_ix.getD 0) := by
  by_cases hrow : p.row_ix = q.row_ix
  · cases hri : p.row_ix with
    | grid r =>
      have hq : q.row_ix = RowIx.grid r := by rw [← hrow]; exact hri
      have hcol : p.col_ix.getD 0 ≠ q.col_ix.getD 0 := by
        intro he
        apply h
        unfold MovablePiece.loc
        rw [hri, hq, he]
      unfold Board.remove_piece
      rw [hri, hq]
      exact stackAt_updateStack_col_ne b r _ hcol
    | T =>
      have hq : q.row_ix = RowIx.T := by rw [← hrow]; exact hri
      refine absurd ?_ h
      unfold MovablePiece.loc
      rw [hri, hq]
    | L =>
      have hq : q.row_ix = RowIx.L := by rw [← hrow]; exact hri
      refine absurd ?_ h
      unfold MovablePiece.loc
      rw [hri, hq]
    | R =>
      have hq : q.row_ix = RowIx.R := by rw [← hrow]; exact hri
      refine absurd ?_ h
      unfold MovablePiece.loc
      rw [hri, hq]
  · exact stackAt_updateStack_row_ne b _ _ _ hrow

/-- The key do/undo algebra: if both referenced pieces sit at the exposed tops
of two distinct stacks/piles, `undo_move` after `do_move` restores the board. -/
theorem undo_move_do_move (b : Board) (m : Move)
    (h1 : (b.stackAt m.1.row_ix (m.1.col_ix.getD 0)).getLast? = some m.1.piece)
    (h2 : (b.stackAt m.2.row_ix (m.2.col_ix.getD 0)).getLast? = some m.2.piece)
    (hne : m.1.loc ≠ m.2.loc) :
    (b.do_move m).undo_move m = b := by
  show (((b.remove_piece m.1).remove_piece m.2).replace_piece m.1).replace_piece m.2 = b
  have hc : ((b.remove_piece m.1).remove_piece m.2).replace_piece m.1 =
      ((b.remove_piece m.1).replace_piece m.1).remove_piece m.2 :=
    updateStack_comm_loc (b.remove_piece m.1) m.2 m.1 _ _ (fun he => hne he.symm)
  rw [hc, replace_remove_self b m.1 h1]
  have h2' : ((b.remove_piece m.1).stackAt m.2.row_ix (m.2.col_ix.getD 0)).getLast? =
      some m.2.piece := by
    rw [stackAt_remove_ne b m.1 m.2 hne]
    exact h2
  exact replace_remove_self b m.2 h2

/-! ## Sorting is a permutation -/

theorem insertBy_perm {α : Type _} (le : α → α → Bool) (x : α) :
    ∀ l : List α, (insertBy le x l).Perm (x :: l)
  | [] => List.Perm.refl _
  | y :: ys => by
    unfold insertBy
    split
    · exact List.Perm.refl _
    · exact ((insertBy_perm le x ys).cons y).trans (List.Perm.swap x y ys)

theorem sortBy_perm {α : Type _} (le : α → α → Bool) :
    ∀ l : List α, (sortBy le l).Perm l
  | [] => List.Perm.refl _
  | x :: xs => (insertBy_perm le x _).trans ((sortBy_perm le xs).cons x)

/-! ## Membership in `find_movable_pieces` -/

theorem is_movable_stack_ne {b : Board} {r c : Nat} {d : Bool}
    (h : b.is_movable r c d = true) : b.stack r c ≠ [] := by
  intro he
  unfold Board.is_movable at h
  rw [he] at h
  simp at h

theorem mem_scanRow {b : Board} {r : Nat} {ltr : Bool} :
    ∀ {cols : List Nat} {last : Nat} {mp : MovablePiece},
      mp ∈ b.scanRow r ltr cols last →
      ∃ c ∈ cols, mp = b.mkMP r c ∧ b.is_movable r c ltr = true
  | [], _, mp, h => by simp [Board.scanRow] at h
  | c :: rest, last, mp, h => by
    simp only [Board.scanRow] at h
    split at h
    · rename_i hcond
      rcases List.mem_cons.mp h with he | h'
      · refine ⟨c, List.mem_cons_self _ _, he, ?_⟩
        simp only [Bool.and_eq_true] at hcond
        exact hcond.1
      · obtain ⟨c', hc', he, hm⟩ := mem_scanRow h'
        exact ⟨c', List.mem_cons_of_mem _ hc', he, hm⟩
    · split at h
      · simp at h
      · obtain ⟨c', hc', he, hm⟩ := mem_scanRow h
        exact ⟨c', List.mem_cons_of_mem _ hc', he, hm⟩

theorem isEmpty_false_ne_nil {α : Type _} {l : List α} (h : l.isEmpty = false) :
    l ≠ [] := by
  cases l with
  | nil => simp at h
  | cons x xs => simp

theorem mem_if_singleton {c : Bool} {x mp : MovablePiece}
    (h : mp ∈ (if c = true then ([] : List MovablePiece) else [x])) :
    mp = x ∧ c = false := by
  cases c with
  | true => simp at h
  | false => simpa using h

theorem mem_find_movable_pieces {b : Board} {mp : MovablePiece}
    (h : mp ∈ b.find_movable_pieces) :
    (∃ r c, r < b.rows.length ∧ c < (b.rows.getD r []).length ∧
        mp = b.mkMP r c ∧ b.stack r c ≠ []) ∨
      (mp = pileMP .T b.top ∧ b.top ≠ []) ∨
      (mp = pileMP .L b.left_blocks ∧ b.left_blocks ≠ []) ∨
      (mp = pileMP .R b.right_blocks ∧ b.right_blocks ≠ []) := by
  unfold Board.find_movable_pieces at h
  have h1 := List.mem_dedup.mp ((sortBy_perm _ _).mem_iff.mp h)
  rcases List.mem_append.mp h1 with hg | hp
  · rcases List.mem_flatMap.mp hg with ⟨r, hr, hmem⟩
    rw [List.mem_range] at hr
    rcases List.mem_append.mp hmem with hs | hs
    · obtain ⟨c, hc, he, hm⟩ := mem_scanRow hs
      exact Or.inl ⟨r, c, hr, List.mem_range.mp hc, he, is_movable_stack_ne hm⟩
    · obtain ⟨c, hc, he, hm⟩ := mem_scanRow hs
      exact Or.inl ⟨r, c, hr, List.mem_range.mp (List.mem_reverse.mp hc), he,
        is_movable_stack_ne hm⟩
  · right
    unfold Board.pileMovables at hp
    rcases List.mem_append.mp hp with h12 | h3
    · rcases List.mem_append.mp h12 with h1 | h2
      · obtain ⟨he, hc⟩ := mem_if_singleton h1
        exact Or.inl ⟨he, isEmpty_false_ne_nil hc⟩
      · obtain ⟨he, hc⟩ := mem_if_singleton h2
        exact Or.inr (Or.inl ⟨he, isEmpty_false_ne_nil hc⟩)
    · obtain ⟨he, hc⟩ := mem_if_singleton h3
      exact Or.inr (Or.inr ⟨he, isEmpty_false_ne_nil hc⟩)

theorem getLast?_topPiece {l : List Piece} (hne : l ≠ []) :
    l.getLast? = some (topPiece l) := by
  have h1 := List.getLast?_eq_getLast l hne
  unfold topPiece
  rw [getLastD_eq_of_getLast? h1, h1]

/-- Every movable piece the query returns references a non-empty stack whose
exposed top is the recorded `piece` field. -/
theorem fmp_top_match {b : Board} {mp : MovablePiece}
    (h : mp ∈ b.find_movable_pieces) :
    b.stackAt mp.row_ix (mp.col_ix.getD 0) ≠ [] ∧
      (b.stackAt mp.row_ix (mp.col_ix.getD 0)).getLast? = some mp.piece := by
  rcases mem_find_movable_pieces h with ⟨r, c, _, _, he, hne⟩ | ⟨he, hne⟩ |
    ⟨he, hne⟩ | ⟨he, hne⟩ <;> subst he <;>
    exact ⟨hne, getLast?_topPiece hne⟩

/-- Distinct entries of one `find_movable_pieces` result reference distinct
stacks: a location determines the whole record. -/
theorem fmp_loc_inj {b : Board} {p q : MovablePiece}
    (hp : p ∈ b.find_movable_pieces) (hq : q ∈ b.find_movable_pieces)
    (hne : p ≠ q) : p.loc ≠ q.loc := by
  intro hloc
  apply hne
  rcases mem_find_movable_pieces hp with ⟨r, c, _, _, hep, _⟩ | ⟨hep, _⟩ |
      ⟨hep, _⟩ | ⟨hep, _⟩ <;>
    rcases mem_find_movable_pieces hq with ⟨r', c', _, _, heq, _⟩ | ⟨heq, _⟩ |
        ⟨heq, _⟩ | ⟨heq, _⟩ <;>
      subst hep <;> subst heq <;>
      first
        | rfl
        | (exfalso
           revert hloc
           simp [MovablePiece.loc, Board.mkMP, pileMP]
           done)
        | (simp only [MovablePiece.loc, Board.mkMP, Prod.mk.injEq,
            Option.getD_some, RowIx.grid.injEq] at hloc
           obtain ⟨h1, h2⟩ := hloc
           subst h1
           subst h2
           rfl)

theorem find_movable_pieces_nodup (b : Board) : b.find_movable_pieces.Nodup :=
  ((sortBy_perm _ _).nodup_iff).mpr (List.nodup_dedup _)

/-! ## `find_moves`: grouping and pair enumeration -/

theorem mem_pairsOf : ∀ {g : List MovablePiece} {m : Move},
    m ∈ pairsOf g ↔ [m.1, m.2].Sublist g
  | [], m => by simp [pairsOf]
  | x :: rest, m => by
    simp only [pairsOf, List.mem_append, List.mem_map]
    constructor
    · rintro (⟨y, hy, he⟩ | h)
      · rw [← he]
        exact List.cons_sublist_cons.mpr (List.singleton_sublist.mpr hy)
      · exact (mem_pairsOf.mp h).cons x
    · intro h
      rcases List.sublist_cons_iff.mp h with h' | ⟨r', he, hr'⟩
      · exact Or.inr (mem_pairsOf.mpr h')
      · left
        injection he with h1 h2
        refine ⟨m.2, List.singleton_sublist.mp (h2 ▸ hr'), ?_⟩
        rw [← h1]

theorem groupInsert_keys (groups : List (Piece × List MovablePiece)) (x : MovablePiece) :
    (groupInsert groups x).map Prod.fst =
      if x.piece ∈ groups.map Prod.fst then groups.map Prod.fst
      else groups.map Prod.fst ++ [x.piece] := by
  induction groups with
  | nil => simp [groupInsert]
  | cons pr rest ih =>
    obtain ⟨p, g⟩ := pr
    by_cases hp : p = x.piece
    · subst hp
      simp [groupInsert]
    · simp only [groupInsert, if_neg hp, List.map_cons]
      rw [ih]
      by_cases hmem : x.piece ∈ rest.map Prod.fst
      · rw [if_pos hmem, if_pos]
        simp [hmem]
      · rw [if_neg hmem, if_neg]
        · simp
        · simp only [List.mem_cons]
          rintro (he | hm)
          · exact hp he.symm
          · exact hmem hm

theorem mem_groupInsert :
    ∀ {groups : List (Piece × List MovablePiece)} {x : MovablePiece}
      {pr : Piece × List MovablePiece},
      (groups.map Prod.fst).Nodup → pr ∈ groupInsert groups x →
      (pr ∈ groups ∧ pr.1 ≠ x.piece) ∨
        (∃ g, (x.piece, g) ∈ groups ∧ pr = (x.piece, g ++ [x])) ∨
        (x.piece ∉ groups.map Prod.fst ∧ pr = (x.piece, [x]))
  | [], x, pr, _, h => by
    simp only [groupInsert, List.mem_singleton] at h
    exact Or.inr (Or.inr ⟨by simp, h⟩)
  | (p, g) :: rest, x, pr, hnd, h => by
    by_cases hp : p = x.piece
    · subst hp
      simp only [groupInsert, if_pos rfl] at h
      rcases List.mem_cons.mp h with he | hm
      · exact Or.inr (Or.inl ⟨g, List.mem_cons_self _ _, he⟩)
      · left
        refine ⟨List.mem_cons_of_mem _ hm, ?_⟩
        intro he
        have hmem : pr.1 ∈ rest.map Prod.fst := List.mem_map.mpr ⟨pr, hm, rfl⟩
        rw [he] at hmem
        exact (List.nodup_cons.mp hnd).1 hmem
    · simp only [groupInsert, if_neg hp] at h
      rcases List.mem_cons.mp h with he | hm
      · subst he
        exact Or.inl ⟨List.mem_cons_self _ _, hp⟩
      · have hnd2 := (List.nodup_cons.mp hnd).2
        rcases mem_groupInsert hnd2 hm with ⟨h1, h2⟩ | ⟨g', hg', he⟩ | ⟨hnm, he⟩
        · exact Or.inl ⟨List.mem_cons_of_mem _ h1, h2⟩
        · exact Or.inr (Or.inl ⟨g', List.mem_cons_of_mem _ hg', he⟩)
        · refine Or.inr (Or.inr ⟨?_, he⟩)
          simp only [List.map_cons, List.mem_cons]
          rintro (h1 | h2)
          · exact hp h1.symm
          · exact hnm h2

/-- The grouping loop builds, for every symbol occurring among the movable
pieces, exactly the sublist of entries with that symbol, in order. -/
theorem movables_by_piece_spec (l : List MovablePiece) :
    ((movables_by_piece l).map Prod.fst).Nodup ∧
      (∀ pr ∈ movables_by_piece l,
        pr.2 = l.filter (fun mp => mp.piece == pr.1) ∧ pr.2 ≠ []) ∧
      (∀ mp ∈ l, mp.piece ∈ (movables_by_piece l).map Prod.fst) := by
  unfold movables_by_piece
  induction l using List.reverseRecOn with
  | nil => exact ⟨List.nodup_nil, by simp, by simp⟩
  | append_singleton l x ih =>
    rw [List.foldl_append, List.foldl_cons, List.foldl_nil]
    obtain ⟨hnd, hcont, hcompl⟩ := ih
    refine ⟨?_, ?_, ?_⟩
    · rw [groupInsert_keys]
      split
      · exact hnd
      · rename_i hnm
        simp [List.nodup_append, hnd, hnm]
    · intro pr hpr
      rcases mem_groupInsert hnd hpr with ⟨h1, h2⟩ | ⟨g, hg, he⟩ | ⟨hnm, he⟩
      · obtain ⟨hfil, hne⟩ := hcont pr h1
        have hx : (x.piece == pr.1) = false := by
          simp only [beq_eq_false_iff_ne, ne_eq]
          exact fun he => h2 he.symm
        rw [List.filter_append]
        refine ⟨?_, hne⟩
        rw [← hfil]
        simp [List.filter, hx]
      · subst he
        obtain ⟨hfil, -⟩ := hcont (x.piece, g) hg
        rw [List.filter_append]
        constructor
        · show g ++ [x] = _ ++ List.filter _ [x]
          rw [← hfil]
          simp
        · simp
      · subst he
        have hfil : l.filter (fun mp => mp.piece == x.piece) = [] := by
          rw [List.filter_eq_nil_iff]
          intro a ha hbeq
          rw [beq_iff_eq] at hbeq
          exact hnm (hbeq ▸ hcompl a ha)
        rw [List.filter_append, hfil]
        constructor
        · simp
        · simp
    · intro mp hmp
      rw [groupInsert_keys]
      rcases List.mem_append.mp hmp with hm | hm
      · have hk := hcompl mp hm
        split
        · exact hk
        · exact List.mem_append_left _ hk
      · have he : mp = x := by simpa using hm
        subst he
        split
        · assumption
        · exact List.mem_append_right _ (by simp)

/-- Membership in `find_moves`: exactly the ordered pairs of entries that
occur, in order, among the input entries carrying the shared symbol. -/
theorem mem_find_moves {l : List MovablePiece} {m : Move} :
    m ∈ find_moves l ↔
      m.1.piece = m.2.piece ∧
        [m.1, m.2].Sublist (l.filter (fun mp => mp.piece == m.1.piece)) := by
  unfold find_moves
  rw [(sortBy_perm _ _).mem_iff, List.mem_dedup, List.mem_flatMap]
  obtain ⟨hnd, hcont, hcompl⟩ := movables_by_piece_spec l
  constructor
  · rintro ⟨pr, hpr, hm⟩
    have hsub := mem_pairsOf.mp hm
    obtain ⟨hfil, -⟩ := hcont pr hpr
    rw [hfil] at hsub
    have h1 : m.1 ∈ l.filter (fun mp => mp.piece == pr.1) :=
      List.Sublist.mem (by simp) hsub
    have h2 : m.2 ∈ l.filter (fun mp => mp.piece == pr.1) :=
      List.Sublist.mem (by simp) hsub
    have hp1 : m.1.piece = pr.1 := by
      have := (List.mem_filter.mp h1).2
      rwa [beq_iff_eq] at this
    have hp2 : m.2.piece = pr.1 := by
      have := (List.mem_filter.mp h2).2
      rwa [beq_iff_eq] at this
    exact ⟨hp1.trans hp2.symm, hp1 ▸ hsub⟩
  · rintro ⟨hpi, hsub⟩
    have h1 : m.1 ∈ l := by
      have hm1 : m.1 ∈ l.filter (fun mp => mp.piece == m.1.piece) :=
        List.Sublist.mem (by simp) hsub
      exact (List.mem_filter.mp hm1).1
    have hk : m.1.piece ∈ (movables_by_piece l).map Prod.fst := hcompl _ h1
    obtain ⟨pr, hpr, hkey⟩ := List.mem_map.mp hk
    refine ⟨pr, hpr, mem_pairsOf.mpr ?_⟩
    obtain ⟨hfil, -⟩ := hcont pr hpr
    rw [hfil, hkey]
    exact hsub

/-- Components of any enumerated move over a duplicate-free input: members of
the input, distinct, sharing a symbol. -/
theorem mem_find_moves_parts {l : List MovablePiece} (hl : l.Nodup) {m : Move}
    (h : m ∈ find_moves l) :
    m.1 ∈ l ∧ m.2 ∈ l ∧ m.1.piece = m.2.piece ∧ m.1 ≠ m.2 := by
  obtain ⟨hpi, hsub⟩ := mem_find_moves.mp h
  have h1 : m.1 ∈ l := (List.mem_filter.mp (List.Sublist.mem (by simp) hsub)).1
  have h2 : m.2 ∈ l := (List.mem_filter.mp (List.Sublist.mem (by simp) hsub)).1
  refine ⟨h1, h2, hpi, ?_⟩
  have hnd : [m.1, m.2].Nodup := List.Nodup.sublist hsub (List.Nodup.filter _ hl)
  simp only [List.nodup_cons, List.mem_singleton] at hnd
  exact hnd.1

/-- Facts about a move drawn from the full enumeration pipeline of a board. -/
theorem pipeline_move_facts {b : Board} {m : Move}
    (h : m ∈ find_moves b.find_movable_pieces) :
    m.1 ∈ b.find_movable_pieces ∧ m.2 ∈ b.find_movable_pieces ∧
      m.1.piece = m.2.piece ∧ m.1.loc ≠ m.2.loc :=
  have hparts := mem_find_moves_parts (find_movable_pieces_nodup b) h
  ⟨hparts.1, hparts.2.1, hparts.2.2.1,
    fmp_loc_inj hparts.1 hparts.2.1 hparts.2.2.2⟩

/-! ## Piece conservation -/

theorem coe_append_split (l1 l2 : List Piece) :
    (↑(l1 ++ l2) : Multiset Piece) = ↑l1 + ↑l2 := (Multiset.coe_add _ _).symm

theorem perm_flatten_set {α : Type _} :
    ∀ (l : List (List α)) (i : Nat) (x : List α), i < l.length →
      ((l.set i x).flatten ++ l.getD i []).Perm (l.flatten ++ x)
  | [], _, _, h => absurd h (by simp)
  | hd :: tl, 0, x, _ => by
    rw [List.set_cons_zero]
    simp only [List.flatten_cons, List.getD_cons_zero]
    refine List.perm_append_comm.trans ?_
    rw [List.append_assoc]
    exact List.Perm.append_left hd List.perm_append_comm
  | hd :: tl, i + 1, x, h => by
    rw [List.set_cons_succ]
    simp only [List.flatten_cons, List.getD_cons_succ]
    rw [List.append_assoc, List.append_assoc]
    exact List.Perm.append_left hd (perm_flatten_set tl i x (by simpa using h))

theorem removeTop_grid (rows : List (List (List Piece))) (r ci : Nat)
    (hr : r < rows.length) (hc : ci < (rows.getD r []).length) :
    (↑((rows.set r ((rows.getD r []).set ci
          ((rows.getD r []).getD ci []).dropLast)).flatten.flatten) : Multiset Piece) +
        ↑((rows.getD r []).getD ci []) =
      (↑(rows.flatten.flatten) : Multiset Piece) +
        ↑(((rows.getD r []).getD ci []).dropLast) := by
  have P1 := (perm_flatten_set rows r ((rows.getD r []).set ci
    ((rows.getD r []).getD ci []).dropLast) hr).flatten
  rw [List.flatten_append, List.flatten_append] at P1
  have P2 := perm_flatten_set (rows.getD r []) ci
    ((rows.getD r []).getD ci []).dropLast hc
  have q1 := Multiset.coe_eq_coe.mpr P1
  have q2 := Multiset.coe_eq_coe.mpr P2
  rw [coe_append_split, coe_append_split] at q1
  rw [coe_append_split, coe_append_split] at q2
  refine add_right_cancel
    (b := (↑((rows.getD r []).flatten) : Multiset Piece)) ?_
  calc (↑((rows.set r ((rows.getD r []).set ci
          ((rows.getD r []).getD ci []).dropLast)).flatten.flatten) : Multiset Piece) +
        ↑((rows.getD r []).getD ci []) + ↑((rows.getD r []).flatten)
      = (↑((rows.set r ((rows.getD r []).set ci
          ((rows.getD r []).getD ci []).dropLast)).flatten.flatten) : Multiset Piece) +
        ↑((rows.getD r []).flatten) + ↑((rows.getD r []).getD ci []) := by abel
    _ = (↑(rows.flatten.flatten) : Multiset Piece) +
        ↑(((rows.getD r []).set ci
          ((rows.getD r []).getD ci []).dropLast).flatten) +
        ↑((rows.getD r []).getD ci []) := by rw [q1]
    _ = (↑(rows.flatten.flatten) : Multiset Piece) +
        (↑(((rows.getD r []).set ci
          ((rows.getD r []).getD ci []).dropLast).flatten) +
        ↑((rows.getD r []).getD ci [])) := by abel
    _ = (↑(rows.flatten.flatten) : Multiset Piece) +
        (↑((rows.getD r []).flatten) +
          ↑(((rows.getD r []).getD ci []).dropLast)) := by rw [q2]
    _ = (↑(rows.flatten.flatten) : Multiset Piece) +
        ↑(((rows.getD r []).getD ci []).dropLast) +
        ↑((rows.getD r []).flatten) := by abel

/-- Popping the exposed top `x` of any stack or pile removes exactly that one
piece from the board multiset. -/
theorem removeTop_boardMS {b : Board} {ri : RowIx} {ci : Nat} {x : Piece}
    (hx : (b.stackAt ri ci).getLast? = some x) :
    (b.updateStack ri ci List.dropLast).boardMS + ↑[x] = b.boardMS := by
  have hne : b.stackAt ri ci ≠ [] := by
    intro he
    rw [he] at hx
    simp at hx
  have hs : (b.stackAt ri ci).dropLast ++ [x] = b.stackAt ri ci :=
    dropLast_concat_getLast hx
  cases ri with
  | T =>
    have hs2 : b.top.dropLast ++ [x] = b.top := hs
    have ht : (↑b.top : Multiset Piece) = ↑b.top.dropLast + ↑[x] := by
      conv_lhs => rw [← hs2]
      exact coe_append_split _ _
    simp only [Board.boardMS, Board.allPieces, Board.updateStack,
      coe_append_split]
    rw [ht]
    abel
  | L =>
    have hs2 : b.left_blocks.dropLast ++ [x] = b.left_blocks := hs
    have ht : (↑b.left_blocks : Multiset Piece) =
        ↑b.left_blocks.dropLast + ↑[x] := by
      conv_lhs => rw [← hs2]
      exact coe_append_split _ _
    simp only [Board.boardMS, Board.allPieces, Board.updateStack,
      coe_append_split]
    rw [ht]
    abel
  | R =>
    have hs2 : b.right_blocks.dropLast ++ [x] = b.right_blocks := hs
    have ht : (↑b.right_blocks : Multiset Piece) =
        ↑b.right_blocks.dropLast + ↑[x] := by
      conv_lhs => rw [← hs2]
      exact coe_append_split _ _
    simp only [Board.boardMS, Board.allPieces, Board.updateStack,
      coe_append_split]
    rw [ht]
    abel
  | grid r =>
    obtain ⟨hr, hc⟩ := Board.stack_pos hne
    have key := removeTop_grid b.rows r ci hr hc
    have hx2 : (↑((b.stack r ci).dropLast) : Multiset Piece) + ↑[x] =
        ↑(b.stack r ci) := by
      rw [← coe_append_split]
      exact congrArg _ hs
    simp only [Board.boardMS, Board.allPieces, Board.updateStack,
      coe_append_split]
    refine add_right_cancel (b := (↑((b.stack r ci).dropLast) : Multiset Piece)) ?_
    calc (↑((b.rows.set r ((b.rows.getD r []).set ci
            (b.stack r ci).dropLast)).flatten.flatten) : Multiset Piece) +
          ↑b.top + ↑b.left_blocks + ↑b.right_blocks + ↑[x] +
          ↑((b.stack r ci).dropLast)
        = ((↑((b.rows.set r ((b.rows.getD r []).set ci
            (b.stack r ci).dropLast)).flatten.flatten) : Multiset Piece) +
          ↑(b.stack r ci)) + ↑b.top + ↑b.left_blocks + ↑b.right_blocks := by
          rw [← hx2]
          abel
      _ = ((↑(b.rows.flatten.flatten) : Multiset Piece) +
          ↑((b.stack r ci).dropLast)) + ↑b.top + ↑b.left_blocks +
          ↑b.right_blocks := by rw [show ((↑((b.rows.set r ((b.rows.getD r []).set ci
            (b.stack r ci).dropLast)).flatten.flatten) : Multiset Piece) +
          ↑(b.stack r ci)) = (↑(b.rows.flatten.flatten) : Multiset Piece) +
          ↑((b.stack r ci).dropLast) from key]
      _ = (↑(b.rows.flatten.flatten) : Multiset Piece) + ↑b.top +
          ↑b.left_blocks + ↑b.right_blocks + ↑((b.stack r ci).dropLast) := by
          abel

theorem remove_piece_boardMS {b : Board} {mp : MovablePiece}
    (hx : (b.stackAt mp.row_ix (mp.col_ix.getD 0)).getLast? = some mp.piece) :
    (b.remove_piece mp).boardMS + ↑[mp.piece] = b.boardMS :=
  removeTop_boardMS hx

theorem count_singleton_piece (a p : Piece) :
    List.count a [p] = if p = a then 1 else 0 := by
  by_cases hpa : p = a
  · subst hpa
    simp
  · simp [List.count_cons, hpa]

/-- A pipeline move removes exactly its two pieces (which share a symbol):
total count drops by 2, the shared symbol's count by 2, all others by 0. -/
theorem do_move_counts {b : Board} {m : Move}
    (hm : m ∈ find_moves b.find_movable_pieces) :
    (b.do_move m).totalCount + 2 = b.totalCount ∧
      ∀ a : Piece, (b.do_move m).symCount a +
          (if m.1.piece = a then 1 else 0) + (if m.2.piece = a then 1 else 0) =
        b.symCount a := by
  obtain ⟨h1, h2, hpi, hloc⟩ := pipeline_move_facts hm
  have t1 := (fmp_top_match h1).2
  have t2 := (fmp_top_match h2).2
  have t2' : ((b.remove_piece m.1).stackAt m.2.row_ix
      (m.2.col_ix.getD 0)).getLast? = some m.2.piece := by
    rw [stackAt_remove_ne b m.1 m.2 hloc]
    exact t2
  have e1 := remove_piece_boardMS t1
  have e2 := remove_piece_boardMS t2'
  constructor
  · have c1 := congrArg Multiset.card e1
    have c2 := congrArg Multiset.card e2
    simp only [Multiset.card_add, Board.boardMS, Multiset.coe_card,
      List.length_singleton] at c1 c2
    show (((b.remove_piece m.1).remove_piece m.2).allPieces).length + 2 =
      (b.allPieces).length
    omega
  · intro a
    have c1 := congrArg (Multiset.count a) e1
    have c2 := congrArg (Multiset.count a) e2
    simp only [Multiset.count_add, Board.boardMS, Multiset.coe_count] at c1 c2
    rw [count_singleton_piece a m.1.piece] at c1
    rw [count_singleton_piece a m.2.piece] at c2
    show (((b.remove_piece m.1).remove_piece m.2).allPieces).count a +
        (if m.1.piece = a then 1 else 0) + (if m.2.piece = a then 1 else 0) =
      (b.allPieces).count a
    by_cases hha : m.1.piece = a
    · have hhb : m.2.piece = a := hpi ▸ hha
      simp only [if_pos hha, if_pos hhb] at c1 c2 ⊢
      omega
    · have hhb : ¬m.2.piece = a := fun he => hha (hpi ▸ he)
      simp only [if_neg hha, if_neg hhb] at c1 c2 ⊢
      omega

/-! ## `fill` conserves the distributed pieces -/

theorem fillStack_ms : ∀ (n : Nat) (st ps : List Piece),
    (↑(Board.fillStack n st ps).1 : Multiset Piece) +
        ↑(Board.fillStack n st ps).2 = ↑st + ↑ps
  | 0, _, _ => rfl
  | n + 1, st, ps => by
    simp only [Board.fillStack]
    cases hl : ps.getLast? with
    | none => exact fillStack_ms n st ps
    | some p =>
      rw [fillStack_ms n (st ++ [p]) ps.dropLast, coe_append_split]
      have hd : (↑ps.dropLast : Multiset Piece) + ↑[p] = ↑ps := by
        rw [← coe_append_split]
        exact congrArg _ (dropLast_concat_getLast hl)
      rw [← hd]
      abel

theorem fillRow_ms (depths : List Nat) : ∀ (cells : List (List Piece))
    (ps : List Piece),
    (↑(Board.fillRow depths cells ps).1.flatten : Multiset Piece) +
        ↑(Board.fillRow depths cells ps).2 = ↑cells.flatten + ↑ps := by
  intro cells
  induction cells generalizing depths with
  | nil => intro ps; rfl
  | cons st rest ih =>
    intro ps
    simp only [Board.fillRow, List.flatten_cons, coe_append_split]
    have hr := ih depths.tail (Board.fillStack (depths.headD 0) st ps).2
    have hst := fillStack_ms (depths.headD 0) st ps
    calc (↑(Board.fillStack (depths.headD 0) st ps).1 : Multiset Piece) +
          ↑(Board.fillRow depths.tail rest
            (Board.fillStack (depths.headD 0) st ps).2).1.flatten +
          ↑(Board.fillRow depths.tail rest
            (Board.fillStack (depths.headD 0) st ps).2).2
        = (↑(Board.fillStack (depths.headD 0) st ps).1 : Multiset Piece) +
          (↑(Board.fillRow depths.tail rest
            (Board.fillStack (depths.headD 0) st ps).2).1.flatten +
          ↑(Board.fillRow depths.tail rest
            (Board.fillStack (depths.headD 0) st ps).2).2) := by abel
      _ = (↑(Board.fillStack (depths.headD 0) st ps).1 : Multiset Piece) +
          (↑rest.flatten + ↑(Board.fillStack (depths.headD 0) st ps).2) := by
          rw [hr]
      _ = ((↑(Board.fillStack (depths.headD 0) st ps).1 : Multiset Piece) +
          ↑(Board.fillStack (depths.headD 0) st ps).2) + ↑rest.flatten := by abel
      _ = (↑st + ↑ps) + (↑rest.flatten : Multiset Piece) := by rw [hst]
      _ = (↑st : Multiset Piece) + ↑rest.flatten + ↑ps := by abel

theorem fillRows_ms (depthss : List (List Nat)) :
    ∀ (rows : List (List (List Piece))) (ps : List Piece),
    (↑(Board.fillRows depthss rows ps).1.flatten.flatten : Multiset Piece) +
        ↑(Board.fillRows depthss rows ps).2 = ↑rows.flatten.flatten + ↑ps := by
  intro rows
  induction rows generalizing depthss with
  | nil => intro ps; rfl
  | cons row rest ih =>
    intro ps
    simp only [Board.fillRows, List.flatten_cons, List.flatten_append,
      coe_append_split]
    have hr := ih depthss.tail (Board.fillRow (depthss.headD []) row ps).2
    have hrw := fillRow_ms (depthss.headD []) row ps
    calc (↑(Board.fillRow (depthss.headD []) row ps).1.flatten : Multiset Piece) +
          ↑(Board.fillRows depthss.tail rest
            (Board.fillRow (depthss.headD []) row ps).2).1.flatten.flatten +
          ↑(Board.fillRows depthss.tail rest
            (Board.fillRow (depthss.headD []) row ps).2).2
        = (↑(Board.fillRow (depthss.headD []) row ps).1.flatten : Multiset Piece) +
          (↑(Board.fillRows depthss.tail rest
            (Board.fillRow (depthss.headD []) row ps).2).1.flatten.flatten +
          ↑(Board.fillRows depthss.tail rest
            (Board.fillRow (depthss.headD []) row ps).2).2) := by abel
      _ = (↑(Board.fillRow (depthss.headD []) row ps).1.flatten : Multiset Piece) +
          (↑rest.flatten.flatten + ↑(Board.fillRow (depthss.headD []) row ps).2) := by
          rw [hr]
      _ = ((↑(Board.fillRow (depthss.headD []) row ps).1.flatten : Multiset Piece) +
          ↑(Board.fillRow (depthss.headD []) row ps).2) + ↑rest.flatten.flatten := by
          abel
      _ = (↑row.flatten + ↑ps) + (↑rest.flatten.flatten : Multiset Piece) := by
          rw [hrw]
      _ = (↑row.flatten : Multiset Piece) + ↑rest.flatten.flatten + ↑ps := by abel

theorem coe_dropLast_getLast (l : List Piece) :
    (↑l.dropLast : Multiset Piece) + ↑l.getLast?.toList = ↑l := by
  cases hl : l.getLast? with
  | none =>
    have he : l = [] := by
      cases l with
      | nil => rfl
      | cons x xs =>
        rw [List.getLast?_eq_getLast (x :: xs) (by simp)] at hl
        simp at hl
    subst he
    rfl
  | some x =>
    show (↑l.dropLast : Multiset Piece) + ↑[x] = ↑l
    rw [← coe_append_split]
    exact congrArg _ (dropLast_concat_getLast hl)

/-- `fill` puts every provided piece somewhere on the board. -/
theorem fill_boardMS (b : Board) (ps : List Piece) :
    (b.fill ps).boardMS = b.boardMS + ↑ps := by
  simp only [Board.fill, Board.boardMS, Board.allPieces, coe_append_split]
  have h1 := fillRows_ms Board.DEPTHS b.rows ps
  have h2 := coe_dropLast_getLast (Board.fillRows Board.DEPTHS b.rows ps).2
  have h3 := coe_dropLast_getLast (Board.fillRows Board.DEPTHS b.rows ps).2.dropLast
  calc (↑(Board.fillRows Board.DEPTHS b.rows ps).1.flatten.flatten : Multiset Piece) +
        (↑b.top + ↑(Board.fillRows Board.DEPTHS b.rows ps).2.getLast?.toList) +
        (↑b.left_blocks +
          ↑(Board.fillRows Board.DEPTHS b.rows ps).2.dropLast.getLast?.toList) +
        (↑b.right_blocks +
          ↑(Board.fillRows Board.DEPTHS b.rows ps).2.dropLast.dropLast)
      = ((↑(Board.fillRows Board.DEPTHS b.rows ps).1.flatten.flatten : Multiset Piece) +
        (((↑(Board.fillRows Board.DEPTHS b.rows ps).2.dropLast.dropLast : Multiset Piece) +
          ↑(Board.fillRows Board.DEPTHS b.rows ps).2.dropLast.getLast?.toList) +
          ↑(Board.fillRows Board.DEPTHS b.rows ps).2.getLast?.toList)) +
        (↑b.top + ↑b.left_blocks + ↑b.right_blocks) := by abel
    _ = ((↑(Board.fillRows Board.DEPTHS b.rows ps).1.flatten.flatten : Multiset Piece) +
        ((↑(Board.fillRows Board.DEPTHS b.rows ps).2.dropLast : Multiset Piece) +
          ↑(Board.fillRows Board.DEPTHS b.rows ps).2.getLast?.toList)) +
        (↑b.top + ↑b.left_blocks + ↑b.right_blocks) := by rw [h3]
    _ = ((↑(Board.fillRows Board.DEPTHS b.rows ps).1.flatten.flatten : Multiset Piece) +
        ↑(Board.fillRows Board.DEPTHS b.rows ps).2) +
        (↑b.top + ↑b.left_blocks + ↑b.right_blocks) := by rw [h2]
    _ = ((↑b.rows.flatten.flatten : Multiset Piece) + ↑ps) +
        (↑b.top + ↑b.left_blocks + ↑b.right_blocks) := by rw [h1]
    _ = (↑b.rows.flatten.flatten : Multiset Piece) + ↑b.top + ↑b.left_blocks +
        ↑b.right_blocks + ↑ps := by abel

theorem boardMS_init : Board.init.boardMS = 0 := rfl

theorem fill_init_symCount (ps : List Piece) (a : Piece) :
    (Board.init.fill ps).symCount a = ps.count a := by
  have h := congrArg (Multiset.count a) (fill_boardMS Board.init ps)
  rw [boardMS_init, zero_add] at h
  simpa [Board.boardMS, Multiset.coe_count, Board.symCount] using h

theorem fill_init_totalCount (ps : List Piece) :
    (Board.init.fill ps).totalCount = ps.length := by
  have h := congrArg Multiset.card (fill_boardMS Board.init ps)
  rw [boardMS_init, zero_add] at h
  simpa [Board.boardMS, Multiset.coe_card, Board.totalCount] using h

theorem count_flatMap_four (l : List Piece) (a : Piece) :
    (l.flatMap (fun p => [p, p, p, p])).count a = 4 * l.count a := by
  induction l with
  | nil => rfl
  | cons x xs ih =>
    simp only [List.flatMap_cons, List.count_append, ih, List.count_cons]
    by_cases hxa : x = a
    · subst hxa
      simp [List.count_cons]
      omega
    · have hxa2 : (x == a) = false := by simp [hxa]
      simp [List.count_cons, hxa2]

/-- The parity invariant: every reachable board has an even number of
remaining copies of every symbol. -/
theorem reachable_symCount_even {b : Board} (h : Reachable b) :
    ∀ a : Piece, Even (b.symCount a) := by
  induction h with
  | fill ps hp =>
    intro a
    rw [fill_init_symCount, hp.count_eq,
      show initialPieces.count a = 4 * PIECES.count a from count_flatMap_four _ _]
    exact ⟨2 * PIECES.count a, by ring⟩
  | step b m hb hm ih =>
    intro a
    have hc := (do_move_counts hm).2 a
    have hpi := (pipeline_move_facts hm).2.2.1
    have he := ih a
    rw [hpi] at hc
    rw [Nat.even_iff] at he ⊢
    split_ifs at hc <;> omega

/-! ## `fill` lengths -/

theorem fillStack_len : ∀ (n : Nat) (st ps : List Piece), n ≤ ps.length →
    (Board.fillStack n st ps).1.length = st.length + n ∧
      (Board.fillStack n st ps).2.length = ps.length - n
  | 0, st, ps, _ => by simp [Board.fillStack]
  | n + 1, st, ps, h => by
    simp only [Board.fillStack]
    cases hl : ps.getLast? with
    | none =>
      exfalso
      have he : ps = [] := by
        cases ps with
        | nil => rfl
        | cons x xs =>
          rw [List.getLast?_eq_getLast (x :: xs) (by simp)] at hl
          simp at hl
      rw [he] at h
      simp at h
    | some p =>
      have hlen : ps.dropLast.length = ps.length - 1 := by
        simp [List.length_dropLast]
      obtain ⟨ih1, ih2⟩ := fillStack_len n (st ++ [p]) ps.dropLast
        (by rw [hlen]; omega)
      constructor
      · rw [ih1]
        simp only [List.length_append, List.length_singleton]
        omega
      · rw [ih2, hlen]
        omega

theorem fillRow_len : ∀ (depths : List Nat) (ps : List Piece),
    depths.sum ≤ ps.length →
    (Board.fillRow depths (depths.map (fun _ => ([] : List Piece))) ps).1.map
        List.length = depths ∧
      (Board.fillRow depths (depths.map (fun _ => ([] : List Piece))) ps).2.length =
        ps.length - depths.sum
  | [], ps, _ => by simp [Board.fillRow]
  | d :: rest, ps, h => by
    rw [List.sum_cons] at h
    simp only [List.map_cons, Board.fillRow, List.headD_cons, List.tail_cons,
      List.sum_cons]
    have hfs := fillStack_len d [] ps (by omega)
    obtain ⟨ih1, ih2⟩ := fillRow_len rest (Board.fillStack d [] ps).2
      (by rw [hfs.2]; omega)
    refine ⟨?_, ?_⟩
    · rw [ih1, hfs.1]
      simp
    · rw [ih2, hfs.2]
      omega

theorem fillRows_len : ∀ (depthss : List (List Nat)) (ps : List Piece),
    (depthss.map List.sum).sum ≤ ps.length →
    (Board.fillRows depthss (depthss.map (fun row =>
        row.map (fun _ => ([] : List Piece)))) ps).1.map
        (fun row => row.map List.length) = depthss ∧
      (Board.fillRows depthss (depthss.map (fun row =>
        row.map (fun _ => ([] : List Piece)))) ps).2.length =
        ps.length - (depthss.map List.sum).sum
  | [], ps, _ => by simp [Board.fillRows]
  | ds :: rest, ps, h => by
    rw [List.map_cons, List.sum_cons] at h
    simp only [List.map_cons, Board.fillRows, List.headD_cons, List.tail_cons,
      List.sum_cons]
    have hfr := fillRow_len ds ps (by omega)
    obtain ⟨ih1, ih2⟩ := fillRows_len rest (Board.fillRow ds
      (ds.map (fun _ => ([] : List Piece))) ps).2
      (by rw [hfr.2]; omega)
    refine ⟨?_, ?_⟩
    · rw [ih1, hfr.1]
    · rw [ih2, hfr.2]
      omega

/-! ## Claim theorems: moves and exposure -/

theorem toList_getLast?_length {l : List Piece} (hne : l ≠ []) :
    l.getLast?.toList.length = 1 := by
  rw [List.getLast?_eq_getLast l hne]
  rfl

/-- C1: starting from a freshly filled board (any permutation of the four
copies of each of the 36 symbols), on every reachable board state every move
returned by `find_moves` over `find_movable_pieces` makes `do_move` decrease
the total piece count across all grid stacks and the three piles by exactly
2, and every symbol's total remaining count stays even. -/
theorem do_move_decreases_two_and_keeps_counts_even {b : Board} {m : Move}
    (hb : Reachable b) (hm : m ∈ find_moves b.find_movable_pieces) :
    (b.do_move m).totalCount + 2 = b.totalCount ∧
      ∀ a : Piece, Even ((b.do_move m).symCount a) :=
  ⟨(do_move_counts hm).1, reachable_symCount_even (Reachable.step b m hb hm)⟩

/-- Witness for C1: the concretely filled board and its first enumerated
move. -/
theorem do_move_decreases_two_witness :
    (filledB.do_move firstMove).totalCount + 2 = filledB.totalCount ∧
      ∀ a : Piece, Even ((filledB.do_move firstMove).symCount a) :=
  do_move_decreases_two_and_keeps_counts_even
    (Reachable.fill initialPieces (List.Perm.refl _)) (by decide)

/-- C2: for a move whose two referenced pieces sit at the exposed tops of two
distinct stacks or piles, `undo_move` immediately after `do_move` restores a
board with identical per-cell stack contents (ordering included) and pile
contents. -/
theorem undo_after_do_restores_board (b : Board) (m : Move)
    (h1 : (b.stackAt m.1.row_ix (m.1.col_ix.getD 0)).getLast? = some m.1.piece)
    (h2 : (b.stackAt m.2.row_ix (m.2.col_ix.getD 0)).getLast? = some m.2.piece)
    (hne : m.1.loc ≠ m.2.loc) :
    (b.do_move m).undo_move m = b :=
  undo_move_do_move b m h1 h2 hne

/-- Witness for C2: the two-piece board and its matching move. -/
theorem undo_after_do_witness :
    (wBoard2.do_move wMove2).undo_move wMove2 = wBoard2 :=
  undo_after_do_restores_board wBoard2 wMove2 (by decide) (by decide) (by decide)

/-- C3 counterexample: on `cexBoard3`, cell (0,0) is at its own depth-map
maximum (stack depth 1 = DEPTHS[0][0]) while `top` is non-empty, yet
`is_movable` returns true for both scan directions — the claim fails as
stated for cells whose depth-map maximum is below 4. -/
theorem max_depth_cell_movable_with_top_nonempty :
    (cexBoard3.stack 0 0).length = (Board.DEPTHS.getD 0 []).getD 0 0 ∧
      cexBoard3.top ≠ [] ∧
      cexBoard3.is_movable 0 0 true = true ∧
      cexBoard3.is_movable 0 0 false = true := by decide

/-- C3 (amended): the code tests `depth == 4` — the global maximum, which
coincides with the cell's depth-map maximum exactly on the four depth-4
cells: a cell whose current stack depth is 4 is never movable, in either
direction, while `top` is non-empty. -/
theorem depth4_not_movable_when_top_nonempty (b : Board) (r c : Nat)
    (d : Bool) (h4 : (b.stack r c).length = 4) (ht : b.top ≠ []) :
    b.is_movable r c d = false := by
  have hne : (b.stack r c).isEmpty = false := by
    cases hs : b.stack r c with
    | nil => rw [hs] at h4; simp at h4
    | cons x xs => rfl
  have htop : b.top.isEmpty = false := by
    cases hb : b.top with
    | nil => exact absurd hb ht
    | cons x xs => rfl
  simp [Board.is_movable, hne, h4, htop]

/-- Witness for the amended C3 at the concrete depth-4 stack. -/
theorem depth4_not_movable_witness :
    wBoard4.is_movable 3 5 true = false ∧ wBoard4.is_movable 3 5 false = false :=
  ⟨depth4_not_movable_when_top_nonempty wBoard4 3 5 true (by decide) (by decide),
   depth4_not_movable_when_top_nonempty wBoard4 3 5 false (by decide) (by decide)⟩

/-- C8: a ground-level (depth-1) cell in row 3 or 4 is never movable
left-to-right while `left_blocks` is non-empty, and never movable
right-to-left while `right_blocks` is non-empty. -/
theorem row34_depth1_blocked_by_side_piles (b : Board) (r c : Nat)
    (hr3 : 3 ≤ r) (hr4 : r ≤ 4) (h1 : (b.stack r c).length = 1) :
    (b.left_blocks ≠ [] → b.is_movable r c true = false) ∧
      (b.right_blocks ≠ [] → b.is_movable r c false = false) := by
  have hne : (b.stack r c).isEmpty = false := by
    cases hs : b.stack r c with
    | nil => rw [hs] at h1; simp at h1
    | cons x xs => rfl
  constructor
  · intro hl
    have hlb : b.left_blocks.isEmpty = false := by
      cases hb : b.left_blocks with
      | nil => exact absurd hb hl
      | cons x xs => rfl
    simp [Board.is_movable, hne, h1, hlb, hr3, hr4]
  · intro hr
    have hrb : b.right_blocks.isEmpty = false := by
      cases hb : b.right_blocks with
      | nil => exact absurd hb hr
      | cons x xs => rfl
    simp [Board.is_movable, hne, h1, hrb, hr3, hr4]

/-- Witness for C8 at the concrete row-3 depth-1 stack. -/
theorem row34_depth1_blocked_witness :
    wBoard8.is_movable 3 0 true = false ∧ wBoard8.is_movable 3 0 false = false :=
  have h := row34_depth1_blocked_by_side_piles wBoard8 3 0 (by decide) (by decide)
    (by decide)
  ⟨h.1 (by decide), h.2 (by decide)⟩

/-! ## Claim theorems: `fill` -/

/-- C4 counterexample: on the concrete legitimate fill, the grid holds 140
pieces (the `DEPTHS` capacities sum to 140), not 96 as the claim states. -/
theorem fill_grid_is_140_not_96 :
    filledB.gridCount = 140 ∧ ¬filledB.gridCount = 96 := by decide

/-- C4 (amended): filling an empty board with any 144-piece list fills every
cell to its depth-map maximum — 140 pieces across the grid — and puts 1 piece
in `top`, 1 in `left_blocks` and the remaining 2 in `right_blocks`, for 144
in total; `is_empty` is false. -/
theorem fill_distribution (ps : List Piece) (h : ps.length = 144) :
    (Board.init.fill ps).rows.map (fun row => row.map List.length) =
        Board.DEPTHS ∧
      (Board.init.fill ps).gridCount = 140 ∧
      (Board.init.fill ps).top.length = 1 ∧
      (Board.init.fill ps).left_blocks.length = 1 ∧
      (Board.init.fill ps).right_blocks.length = 2 ∧
      (Board.init.fill ps).totalCount = 144 ∧
      (Board.init.fill ps).is_empty = false := by
  have hsum : (Board.DEPTHS.map List.sum).sum = 140 := by decide
  obtain ⟨h1, h2⟩ := fillRows_len Board.DEPTHS ps (by rw [hsum, h]; omega)
  have hrows : (Board.init.fill ps).rows.map (fun row => row.map List.length) =
      Board.DEPTHS := h1
  have hps1 : (Board.fillRows Board.DEPTHS Board.init.rows ps).2.length = 4 := by
    have h3 : (Board.fillRows Board.DEPTHS Board.init.rows ps).2.length =
        ps.length - (Board.DEPTHS.map List.sum).sum := h2
    rw [hsum, h] at h3
    omega
  have hne1 : (Board.fillRows Board.DEPTHS Board.init.rows ps).2 ≠ [] := by
    intro he
    rw [he] at hps1
    simp at hps1
  have hne2 : (Board.fillRows Board.DEPTHS Board.init.rows ps).2.dropLast ≠ [] := by
    intro he
    have h4 := congrArg List.length he
    rw [List.length_dropLast, hps1] at h4
    simp at h4
  have htl : (Board.init.fill ps).top.length = 1 := by
    show ([] ++ (Board.fillRows Board.DEPTHS
      Board.init.rows ps).2.getLast?.toList).length = 1
    rw [List.nil_append]
    exact toList_getLast?_length hne1
  have hll : (Board.init.fill ps).left_blocks.length = 1 := by
    show ([] ++ (Board.fillRows Board.DEPTHS
      Board.init.rows ps).2.dropLast.getLast?.toList).length = 1
    rw [List.nil_append]
    exact toList_getLast?_length hne2
  have hrl : (Board.init.fill ps).right_blocks.length = 2 := by
    show ([] ++ (Board.fillRows Board.DEPTHS
      Board.init.rows ps).2.dropLast.dropLast).length = 2
    rw [List.nil_append, List.length_dropLast, List.length_dropLast, hps1]
  have hgrid : (Board.init.fill ps).gridCount = 140 := by
    show (Board.init.fill ps).rows.flatten.flatten.length = 140
    rw [List.length_flatten, List.map_flatten, List.sum_flatten]
    have h5 : ((Board.init.fill ps).rows.map (fun row => row.map List.length)).map
        List.sum = Board.DEPTHS.map List.sum := by rw [hrows]
    rw [h5, hsum]
  refine ⟨hrows, hgrid, htl, hll, hrl, ?_, ?_⟩
  · rw [fill_init_totalCount, h]
  · have hte : (Board.init.fill ps).top.isEmpty = false := by
      cases hb : (Board.init.fill ps).top with
      | nil => rw [hb] at htl; simp at htl
      | cons x xs => rfl
    simp [Board.is_empty, hte]

/-- Witness for the amended C4 at the identity-shuffled piece list. -/
theorem fill_distribution_witness :
    (Board.init.fill initialPieces).rows.map (fun row => row.map List.length) =
        Board.DEPTHS ∧
      (Board.init.fill initialPieces).gridCount = 140 ∧
      (Board.init.fill initialPieces).top.length = 1 ∧
      (Board.init.fill initialPieces).left_blocks.length = 1 ∧
      (Board.init.fill initialPieces).right_blocks.length = 2 ∧
      (Board.init.fill initialPieces).totalCount = 144 ∧
      (Board.init.fill initialPieces).is_empty = false :=
  fill_distribution initialPieces (by decide)

/-! ## Claim theorems: `MovablePiece` equality and `get_state` -/

/-- C5 counterexample: `MovablePiece` equality is componentwise over all four
namedtuple fields, so two values with equal (row, col) coordinates but
different `piece` fields are not equal. -/
theorem movablepiece_eq_not_coords_only :
    cexMPa.row_ix = cexMPb.row_ix ∧ cexMPa.col_ix = cexMPb.col_ix ∧
      cexMPa ≠ cexMPb := by decide

/-- C5 (amended): equality compares all four fields; among the entries of one
`find_movable_pieces` result the (row, col) coordinate already determines the
whole record, so two such entries are equal iff their coordinates are. -/
theorem fmp_entries_eq_iff_coords_eq {b : Board} {p q : MovablePiece}
    (hp : p ∈ b.find_movable_pieces) (hq : q ∈ b.find_movable_pieces) :
    p = q ↔ p.row_ix = q.row_ix ∧ p.col_ix = q.col_ix := by
  constructor
  · rintro rfl
    exact ⟨rfl, rfl⟩
  · rintro ⟨hrow, hcol⟩
    by_contra hne
    apply fmp_loc_inj hp hq hne
    unfold MovablePiece.loc
    rw [hrow, hcol]

/-- Witness for the amended C5 on the two-piece board's entries. -/
theorem fmp_entries_eq_iff_coords_witness :
    wMove2.1 = wMove2.2 ↔
      wMove2.1.row_ix = wMove2.2.row_ix ∧ wMove2.1.col_ix = wMove2.2.col_ix :=
  fmp_entries_eq_iff_coords_eq (b := wBoard2) (by decide) (by decide)

theorem flatten_inj_of_length {α : Type _} :
    ∀ {xs ys : List (List α)}, xs.map List.length = ys.map List.length →
      xs.flatten = ys.flatten → xs = ys
  | [], [], _, _ => rfl
  | [], _ :: _, h, _ => by simp at h
  | _ :: _, [], h, _ => by simp at h
  | x :: xs, y :: ys, h, hf => by
    simp only [List.map_cons, List.cons.injEq] at h
    simp only [List.flatten_cons] at hf
    obtain ⟨h1, h2⟩ := h
    obtain ⟨hx, hxs⟩ := List.append_inj hf h1
    rw [hx, flatten_inj_of_length h2 hxs]

/-- C6: `get_state` is a pure function of the board's depth shape, and on
boards with the grid's geometry it separates shapes: two states are equal iff
the per-cell stack depths and the three pile lengths all coincide. -/
theorem get_state_eq_iff_shape_eq {b1 b2 : Board}
    (h1 : b1.rowShapeOK) (h2 : b2.rowShapeOK) :
    b1.get_state = b2.get_state ↔ b1.shape = b2.shape := by
  have hout1 : (b1.rows.map (fun row => row.map List.length)).map List.length =
      (b2.rows.map (fun row => row.map List.length)).map List.length := by
    rw [List.map_map, List.map_map]
    simp only [Function.comp_def, List.length_map]
    rw [show b1.rows.map List.length = Board.DEPTHS.map List.length from h1,
      show b2.rows.map List.length = Board.DEPTHS.map List.length from h2]
  constructor
  · intro h
    unfold Board.get_state at h
    have hlen : (b1.rows.map (fun row => row.map List.length)).flatten.length =
        (b2.rows.map (fun row => row.map List.length)).flatten.length := by
      rw [List.length_flatten, List.length_flatten, hout1]
    obtain ⟨hflat, hpiles⟩ := List.append_inj h hlen
    have hshape := flatten_inj_of_length hout1 hflat
    simp only [List.cons.injEq] at hpiles
    obtain ⟨ht, hl, hr, -⟩ := hpiles
    unfold Board.shape
    rw [hshape, ht, hl, hr]
  · intro h
    simp only [Board.shape, Prod.mk.injEq] at h
    obtain ⟨ha, hb, hc, hd⟩ := h
    unfold Board.get_state
    rw [ha, hb, hc, hd]

/-- Witness for C6 on two concrete well-shaped boards. -/
theorem get_state_eq_iff_shape_witness :
    Board.init.get_state = cexBoard3.get_state ↔
      Board.init.shape = cexBoard3.shape :=
  get_state_eq_iff_shape_eq (by unfold Board.rowShapeOK; decide)
    (by unfold Board.rowShapeOK; decide)

/-! ## Claim theorems: `find_moves` enumeration -/

theorem pairsOf_length : ∀ g : List MovablePiece,
    (pairsOf g).length = g.length.choose 2
  | [] => rfl
  | x :: rest => by
    simp only [pairsOf, List.length_append, List.length_map,
      pairsOf_length rest, List.length_cons]
    rw [Nat.choose_succ_succ, Nat.choose_one_right]

theorem pairsOf_nodup : ∀ {g : List MovablePiece}, g.Nodup → (pairsOf g).Nodup
  | [], _ => List.nodup_nil
  | x :: rest, h => by
    obtain ⟨hx, hr⟩ := List.nodup_cons.mp h
    simp only [pairsOf]
    rw [List.nodup_append]
    refine ⟨?_, pairsOf_nodup hr, ?_⟩
    · refine List.Nodup.map ?_ hr
      intro a b hab
      simpa using congrArg Prod.snd hab
    · intro m hm1 hm2
      obtain ⟨y, hy, he⟩ := List.mem_map.mp hm1
      have h1 : m.1 ∈ rest :=
        List.Sublist.mem (by simp) (mem_pairsOf.mp hm2)
      rw [← he] at h1
      exact hx h1

theorem pair_sublist_of_mem {α : Type _} [DecidableEq α] :
    ∀ {l : List α} {a b : α}, a ∈ l → b ∈ l → a ≠ b →
      [a, b].Sublist l ∨ [b, a].Sublist l
  | [], a, b, ha, _, _ => absurd ha (by simp)
  | x :: rest, a, b, ha, hb, hne => by
    by_cases hax : a = x
    · subst hax
      have hbr : b ∈ rest := by
        rcases List.mem_cons.mp hb with he | hm
        · exact absurd he.symm hne
        · exact hm
      exact Or.inl (List.cons_sublist_cons.mpr (List.singleton_sublist.mpr hbr))
    · by_cases hbx : b = x
      · subst hbx
        have har : a ∈ rest := by
          rcases List.mem_cons.mp ha with he | hm
          · exact absurd he hax
          · exact hm
        exact Or.inr (List.cons_sublist_cons.mpr (List.singleton_sublist.mpr har))
      · have har : a ∈ rest := by
          rcases List.mem_cons.mp ha with he | hm
          · exact absurd he hax
          · exact hm
        have hbr : b ∈ rest := by
          rcases List.mem_cons.mp hb with he | hm
          · exact absurd he hbx
          · exact hm
        rcases pair_sublist_of_mem har hbr hne with h | h
        · exact Or.inl (h.cons x)
        · exact Or.inr (h.cons x)

theorem not_both_orders_sublist {α : Type _} :
    ∀ {l : List α} {a b : α}, l.Nodup → a ≠ b →
      [a, b].Sublist l → [b, a].Sublist l → False
  | [], a, b, _, _, h1, _ => by simp at h1
  | x :: rest, a, b, hnd, hne, h1, h2 => by
    obtain ⟨hx, hr⟩ := List.nodup_cons.mp hnd
    rcases List.sublist_cons_iff.mp h1 with h1' | ⟨r1, he1, hr1⟩
    · rcases List.sublist_cons_iff.mp h2 with h2' | ⟨r2, he2, hr2⟩
      · exact not_both_orders_sublist hr hne h1' h2'
      · injection he2 with hbx h2tl
        subst hbx
        exact hx (List.Sublist.mem (by simp) h1')
    · injection he1 with hax h1tl
      subst hax
      rcases List.sublist_cons_iff.mp h2 with h2' | ⟨r2, he2, hr2⟩
      · have : a ∈ rest := List.Sublist.mem (by simp) h2'
        exact hx this
      · injection he2 with hba
        exact hne hba.symm

theorem find_moves_flatMap_nodup {l : List MovablePiece} (hl : l.Nodup) :
    ((movables_by_piece l).flatMap (fun g => pairsOf g.2)).Nodup := by
  obtain ⟨hnd, hcont, hcompl⟩ := movables_by_piece_spec l
  rw [List.flatMap_def, List.nodup_flatten]
  constructor
  · intro pairs hpairs
    obtain ⟨pr, hpr, he⟩ := List.mem_map.mp hpairs
    rw [← he]
    obtain ⟨hfil, -⟩ := hcont pr hpr
    exact pairsOf_nodup (hfil ▸ hl.filter _)
  · rw [List.pairwise_map]
    have hkeys : List.Pairwise
        (fun pr1 pr2 : Piece × List MovablePiece => pr1.1 ≠ pr2.1)
        (movables_by_piece l) := List.pairwise_map.mp hnd
    refine List.Pairwise.imp_of_mem ?_ hkeys
    intro pr1 pr2 hm1 hm2 hne12 m hp1 hp2
    obtain ⟨hfil1, -⟩ := hcont pr1 hm1
    obtain ⟨hfil2, -⟩ := hcont pr2 hm2
    have e1 : m.1 ∈ pr1.2 := List.Sublist.mem (by simp) (mem_pairsOf.mp hp1)
    have e2 : m.1 ∈ pr2.2 := List.Sublist.mem (by simp) (mem_pairsOf.mp hp2)
    rw [hfil1] at e1
    rw [hfil2] at e2
    have k1 : m.1.piece = pr1.1 := by
      have := (List.mem_filter.mp e1).2
      rwa [beq_iff_eq] at this
    have k2 : m.1.piece = pr2.1 := by
      have := (List.mem_filter.mp e2).2
      rwa [beq_iff_eq] at this
    exact hne12 (k1 ▸ k2)

theorem find_moves_length {l : List MovablePiece} (hl : l.Nodup) :
    (find_moves l).length =
      ((l.map (fun mp => mp.piece)).dedup.map
        (fun s => (l.countP (fun mp => mp.piece == s)).choose 2)).sum := by
  obtain ⟨hnd, hcont, hcompl⟩ := movables_by_piece_spec l
  unfold find_moves
  rw [(sortBy_perm _ _).length_eq,
    List.dedup_eq_self.mpr (find_moves_flatMap_nodup hl), List.length_flatMap]
  have hmap : (movables_by_piece l).map (fun pr => (pairsOf pr.2).length) =
      (movables_by_piece l).map
        (fun pr => (l.countP (fun mp => mp.piece == pr.1)).choose 2) := by
    apply List.map_congr_left
    intro pr hpr
    rw [pairsOf_length]
    obtain ⟨hfil, -⟩ := hcont pr hpr
    rw [hfil, ← List.countP_eq_length_filter]
  have hperm : ((movables_by_piece l).map Prod.fst).Perm
      (l.map (fun mp => mp.piece)).dedup := by
    apply List.perm_of_nodup_nodup_toFinset_eq hnd (List.nodup_dedup _)
    ext s
    simp only [List.mem_toFinset, List.mem_dedup]
    constructor
    · intro hs
      obtain ⟨pr, hpr, he⟩ := List.mem_map.mp hs
      obtain ⟨hfil, hne⟩ := hcont pr hpr
      obtain ⟨mp, hmp⟩ := List.exists_mem_of_ne_nil _ hne
      rw [hfil] at hmp
      obtain ⟨hmpl, hbeq⟩ := List.mem_filter.mp hmp
      rw [beq_iff_eq] at hbeq
      exact List.mem_map.mpr ⟨mp, hmpl, by rw [hbeq, he]⟩
    · intro hs
      obtain ⟨mp, hmp, he⟩ := List.mem_map.mp hs
      rw [← he]
      exact hcompl mp hmp
  calc ((movables_by_piece l).map (fun pr => (pairsOf pr.2).length)).sum
      = ((movables_by_piece l).map
          (fun pr => (l.countP (fun mp => mp.piece == pr.1)).choose 2)).sum := by
        rw [hmap]
    _ = (((movables_by_piece l).map Prod.fst).map
          (fun s => (l.countP (fun mp => mp.piece == s)).choose 2)).sum := by
        rw [List.map_map]
        rfl
    _ = ((l.map (fun mp => mp.piece)).dedup.map
          (fun s => (l.countP (fun mp => mp.piece == s)).choose 2)).sum :=
        (hperm.map _).sum_eq

/-- C7: over any duplicate-free list of movable pieces, `find_moves` returns
exactly the unordered pairs of distinct entries sharing a symbol: every
returned move pairs two distinct input entries with equal symbols; every such
unordered pair appears in exactly one orientation; and the number of moves is
the sum over occurring symbols of n·(n−1)/2 — in particular a list of exactly
two entries sharing a symbol yields exactly one move. -/
theorem find_moves_exact_pairs (l : List MovablePiece) (hl : l.Nodup) :
    (∀ m : Move, m ∈ find_moves l →
        m.1 ∈ l ∧ m.2 ∈ l ∧ m.1.piece = m.2.piece ∧ m.1 ≠ m.2) ∧
      (∀ p q : MovablePiece, p ∈ l → q ∈ l → p ≠ q → p.piece = q.piece →
        ((p, q) ∈ find_moves l ∧ (q, p) ∉ find_moves l) ∨
          ((q, p) ∈ find_moves l ∧ (p, q) ∉ find_moves l)) ∧
      (find_moves l).length =
        ((l.map (fun mp => mp.piece)).dedup.map
          (fun s => (l.countP (fun mp => mp.piece == s)).choose 2)).sum := by
  refine ⟨fun m hm => mem_find_moves_parts hl hm, ?_, find_moves_length hl⟩
  intro p q hp hq hne hpi
  have hpf : p ∈ l.filter (fun mp => mp.piece == p.piece) :=
    List.mem_filter.mpr ⟨hp, by simp⟩
  have hqf : q ∈ l.filter (fun mp => mp.piece == p.piece) :=
    List.mem_filter.mpr ⟨hq, by simp [hpi.symm]⟩
  have hfk : (l.filter (fun mp => mp.piece == p.piece)).Nodup := hl.filter _
  rcases pair_sublist_of_mem hpf hqf hne with hs | hs
  · left
    refine ⟨mem_find_moves.mpr ⟨hpi, hs⟩, ?_⟩
    intro hqp
    obtain ⟨-, hs2⟩ := mem_find_moves.mp hqp
    rw [show (q, p).1.piece = p.piece from hpi.symm] at hs2
    exact not_both_orders_sublist hfk hne hs hs2
  · right
    have hs' : [q, p].Sublist (l.filter (fun mp => mp.piece == q.piece)) := by
      rw [show q.piece = p.piece from hpi.symm]
      exact hs
    refine ⟨mem_find_moves.mpr ⟨hpi.symm, hs'⟩, ?_⟩
    intro hpq
    obtain ⟨-, hs2⟩ := mem_find_moves.mp hpq
    exact not_both_orders_sublist hfk hne hs2 hs

/-- Witness for C7 on a two-entry list sharing a symbol. -/
theorem find_moves_exact_pairs_witness :
    (∀ m : Move, m ∈ find_moves [wMove2.1, wMove2.2] →
        m.1 ∈ [wMove2.1, wMove2.2] ∧ m.2 ∈ [wMove2.1, wMove2.2] ∧
          m.1.piece = m.2.piece ∧ m.1 ≠ m.2) ∧
      (∀ p q : MovablePiece, p ∈ [wMove2.1, wMove2.2] →
        q ∈ [wMove2.1, wMove2.2] → p ≠ q → p.piece = q.piece →
        ((p, q) ∈ find_moves [wMove2.1, wMove2.2] ∧
            (q, p) ∉ find_moves [wMove2.1, wMove2.2]) ∨
          ((q, p) ∈ find_moves [wMove2.1, wMove2.2] ∧
            (p, q) ∉ find_moves [wMove2.1, wMove2.2])) ∧
      (find_moves [wMove2.1, wMove2.2]).length =
        (([wMove2.1, wMove2.2].map (fun mp => mp.piece)).dedup.map
          (fun s => ([wMove2.1, wMove2.2].countP
            (fun mp => mp.piece == s)).choose 2)).sum :=
  find_moves_exact_pairs [wMove2.1, wMove2.2] (by decide)

/-! ## Claim theorems: the backtracking searcher -/

theorem btLoop_restores (search : SearcherSt → Option SearcherSt)
    (hsearch : ∀ s s1 : SearcherSt, search s = some s1 →
      s1.board = s.board ∧ s1.moves = s.moves) :
    ∀ (mvs : List Move) (s s1 : SearcherSt),
      (∀ mv ∈ mvs, mv ∈ find_moves s.board.find_movable_pieces) →
      btLoop search s mvs = some s1 → s1.board = s.board ∧ s1.moves = s.moves
  | [], s, s1, _, h => by
    simp only [btLoop, Option.some_inj] at h
    rw [← h]
    exact ⟨rfl, rfl⟩
  | mv :: rest, s, s1, hmv, h => by
    simp only [btLoop] at h
    cases hs : search { s with board := s.board.do_move mv, moves := s.moves ++ [mv] } with
    | none => rw [hs] at h; simp at h
    | some s2 =>
      rw [hs] at h
      have hm := hmv mv (List.mem_cons_self _ _)
      obtain ⟨hb2, hm2⟩ := hsearch _ _ hs
      have hrestore : s2.board.undo_move mv = s.board := by
        rw [hb2]
        show (s.board.do_move mv).undo_move mv = s.board
        obtain ⟨hp1, hp2, -, hploc⟩ := pipeline_move_facts hm
        exact undo_move_do_move _ _ (fmp_top_match hp1).2 (fmp_top_match hp2).2
          hploc
      have hmoves : s2.moves.dropLast = s.moves := by
        rw [hm2]
        show (s.moves ++ [mv]).dropLast = s.moves
        simp
      obtain ⟨hb1, hm1⟩ := btLoop_restores search hsearch rest
        { s2 with board := s2.board.undo_move mv, moves := s2.moves.dropLast } s1
        (by intro mv2 hmv2
            show mv2 ∈ find_moves (s2.board.undo_move mv).find_movable_pieces
            rw [hrestore]
            exact hmv mv2 (List.mem_cons_of_mem _ hmv2)) h
      constructor
      · rw [hb1]
        exact hrestore
      · rw [hm1]
        exact hmoves

theorem btSearch_restores : ∀ (fuel : Nat) (s s1 : SearcherSt),
    btSearch fuel s = some s1 → s1.board = s.board ∧ s1.moves = s.moves := by
  intro fuel
  induction fuel with
  | zero =>
    intro s s1 h
    simp [btSearch] at h
  | succ fuel ih =>
    intro s s1 h
    simp only [btSearch] at h
    split at h
    · rw [Option.some_inj] at h
      rw [← h]
      exact ⟨rfl, rfl⟩
    · split at h
      · rw [Option.some_inj] at h
        rw [← h]
        exact ⟨rfl, rfl⟩
      · have hres := btLoop_restores (btSearch fuel) ih _
          { s with seen_states := setInsert s.seen_states s.board.get_state } _
          (fun mv hmv => hmv) h
        exact hres

theorem btLoop_total (fuel : Nat)
    (hs : ∀ s : SearcherSt, s.board.totalCount < fuel → (btSearch fuel s).isSome) :
    ∀ (mvs : List Move) (s : SearcherSt),
      (∀ mv ∈ mvs, mv ∈ find_moves s.board.find_movable_pieces) →
      s.board.totalCount ≤ fuel → (btLoop (btSearch fuel) s mvs).isSome
  | [], s, _, _ => by simp [btLoop]
  | mv :: rest, s, hmv, hcount => by
    simp only [btLoop]
    have hm := hmv mv (List.mem_cons_self _ _)
    have hdec := (do_move_counts hm).1
    have h1 := hs { s with board := s.board.do_move mv, moves := s.moves ++ [mv] }
      (by show (s.board.do_move mv).totalCount < fuel; omega)
    cases hsr : btSearch fuel { s with board := s.board.do_move mv, moves := s.moves ++ [mv] } with
    | none => rw [hsr] at h1; simp at h1
    | some s2 =>
      obtain ⟨hb2, -⟩ := btSearch_restores fuel _ _ hsr
      have hrestore : s2.board.undo_move mv = s.board := by
        rw [hb2]
        show (s.board.do_move mv).undo_move mv = s.board
        obtain ⟨hp1, hp2, -, hploc⟩ := pipeline_move_facts hm
        exact undo_move_do_move _ _ (fmp_top_match hp1).2 (fmp_top_match hp2).2
          hploc
      refine btLoop_total fuel hs rest
        { s2 with board := s2.board.undo_move mv, moves := s2.moves.dropLast }
        ?_ ?_
      · intro mv2 hmv2
        show mv2 ∈ find_moves (s2.board.undo_move mv).find_movable_pieces
        rw [hrestore]
        exact hmv mv2 (List.mem_cons_of_mem _ hmv2)
      · show (s2.board.undo_move mv).totalCount ≤ fuel
        rw [hrestore]
        exact hcount

theorem btSearch_total : ∀ (fuel : Nat) (s : SearcherSt),
    s.board.totalCount < fuel → (btSearch fuel s).isSome := by
  intro fuel
  induction fuel with
  | zero =>
    intro s h
    exact absurd h (Nat.not_lt_zero _)
  | succ fuel ih =>
    intro s h
    simp only [btSearch]
    split
    · simp
    · split
      · simp
      · exact btLoop_total fuel ih _ _ (fun mv hmv => hmv) (by
          show s.board.totalCount ≤ fuel
          omega)

/-- C9: `backtracking_search` terminates from every starting state: since each
applied move strictly decreases the total piece count by 2 and branches are
otherwise exhausted or pruned, a recursion budget of one more than the total
piece count is never exhausted (there is no fixed depth bound — the budget
depends only on the board's finite piece count). -/
theorem backtracking_search_terminates (s : SearcherSt) :
    (btSearch (s.board.totalCount + 1) s).isSome :=
  btSearch_total _ s (by omega)

/-- C10: whenever `backtracking_search` returns, the searcher's board (and
its move path) is exactly the state it was in when the call began: every
`do_move` performed during the search is paired with an `undo_move` of the
same move in LIFO order before returning. -/
theorem backtracking_search_restores_board (fuel : Nat) (s s1 : SearcherSt)
    (h : btSearch fuel s = some s1) : s1.board = s.board ∧ s1.moves = s.moves :=
  btSearch_restores fuel s s1 h

/-- Witness for C10 on a concrete completed search. -/
theorem backtracking_search_restores_witness :
    st1.board = st0.board ∧ st1.moves = st0.moves :=
  backtracking_search_restores_board 1 st0 st1 (by decide)
